import Mathlib

/-!
pgtype binary array codec: shallow embedding and verified properties

Embedding of `binary/array.go` (`NewArrayIterator`, `ArrayIterator.NextElem`)
and of the array decoders built on it in `composite_bench_test.go` and
`custom_composite_test.go`. The composite writer and scanner the sources call
(`RecordStart`, `RecordAdd`, `RecordAddNull`, `ScanRowValue`) and the int4 and
text field codecs are defined outside them and are modelled from the
specification.

Modelling conventions
* a Go `[]byte` is a `List UInt8`; where the code tells a nil slice from an
  empty one, the slice is an `Option (List UInt8)` with `none` for nil;
* Go `int` is 64 bits wide, so buffer lengths and `12+numDims*8` never wrap
  and are natural numbers; `int32` values are integers in `[-2^31, 2^31)` and
  `int32` arithmetic wraps explicitly (`int32`);
* a Go call either returns its result tuple (`Run.ret`) or stops with a
  run-time panic (`Run.panic`); loops run on fuel and `Run.outOfFuel` is the
  result of a loop that has not finished when the fuel is spent.
* calls and reads are counted on observed runs (`Traced`): the model with a
  log of the reads or calls it makes, which gives back the plain model when
  the log is erased.
-/

namespace Pgtype

/-- Errors built by `errors.Errorf` / `errors.New` in the sources, one
constructor per message format, and `collaborator` for an error that comes
out of a field codec. -/
inductive Error where
  /-- Message "array header too short: %d". -/
  | headerTooShort (len : Nat)
  /-- Message "array header too short for %d dimensions: %d". -/
  | headerTooShortForDims (numDims len : Nat)
  /-- Message "array element too short". -/
  | elementTooShort
  /-- Message "ARRAY's %d th element is NULL, decode into slice of pointers instead". -/
  | nullElement (i : Nat)
  /-- Message "NULL values can't be decoded. Scan into a &*MyType to handle NULLs". -/
  | nullValue
  /-- Error returned by a collaborator codec. -/
  | collaborator (code : Nat)
  /-- Error kind `MalformedInput` of the composite scanner. -/
  | malformedInput
  /-- Error kind `TypeMismatch` of the composite scanner: "expected N fields, found F". -/
  | typeMismatch (expected found : Nat)
  /-- Error of the int4 field codec on a payload that is not 4 bytes long. -/
  | invalidLength (len : Nat)
  /-- Error of `AssignTo` on a value that the destination cannot hold. -/
  | cannotAssign
  deriving DecidableEq

/-- Run-time panics of the Go runtime that the modelled code can raise. -/
inductive Fault where
  /-- Index out of range. -/
  | indexOutOfRange
  /-- Slice bounds out of range. -/
  | sliceBounds
  deriving DecidableEq

/-- Outcome of running a Go function. -/
inductive Run (α : Type) where
  /-- The call returned. -/
  | ret (a : α)
  /-- The call stopped with a run-time panic. -/
  | panic (f : Fault)
  /-- The loop fuel of the model ran out. -/
  | outOfFuel
  deriving DecidableEq

/-- Sequencing of Go calls: a panic ends the run. -/
def Run.bind {α β : Type} (x : Run α) (f : α → Run β) : Run β :=
  match x with
  | .ret a => f a
  | .panic p => .panic p
  | .outOfFuel => .outOfFuel

/-- Conversion `int32(x)`: two's-complement wrap into `[-2^31, 2^31)`. -/
def int32 (x : Int) : Int := (x + 2147483648) % 4294967296 - 2147483648

/-- Slice expression `s[lo:]`; panics when `lo > len(s)`. -/
def sliceFrom (s : List UInt8) (lo : Nat) : Run (List UInt8) :=
  if lo ≤ s.length then .ret (s.drop lo) else .panic .sliceBounds

/-- Slice expression `s[lo:hi]` with signed bounds; panics unless
`0 ≤ lo ≤ hi ≤ len(s)` (the slices here have capacity equal to or above their
length, and `hi` is checked against the length before the call). -/
def sliceRange (s : List UInt8) (lo hi : Int) : Run (List UInt8) :=
  if 0 ≤ lo ∧ lo ≤ hi ∧ hi ≤ (s.length : Int) then
    .ret ((s.drop lo.toNat).take (hi.toNat - lo.toNat))
  else .panic .sliceBounds

/-- Slice expression `s[lo:]` with a signed bound. -/
def sliceFromInt (s : List UInt8) (lo : Int) : Run (List UInt8) :=
  if 0 ≤ lo ∧ lo ≤ (s.length : Int) then .ret (s.drop lo.toNat) else .panic .sliceBounds

/-- Model of `binary.BigEndian.Uint32(b)`: needs `b[3]` to exist. -/
def Uint32 (b : List UInt8) : Run Nat :=
  match b with
  | b0 :: b1 :: b2 :: b3 :: _ =>
    .ret (b3.toNat + b2.toNat * 256 + b1.toNat * 65536 + b0.toNat * 16777216)
  | _ => .panic .indexOutOfRange

/-- The read `binary.BigEndian.Uint32(src[rp:])`. -/
def readUint32 (src : List UInt8) (rp : Nat) : Run Nat :=
  (sliceFrom src rp).bind Uint32

/-- Element of `[]ArrayDimension`. -/
structure ArrayDimension where
  Length : Int
  LowerBound : Int
  deriving DecidableEq

/-- The type `ArrayIterator []byte`. -/
abbrev ArrayIterator := List UInt8

/-- Result tuple of `NewArrayIterator`. -/
structure ArrayStart where
  it : ArrayIterator
  elementCount : Int
  dims : List ArrayDimension
  oid : Nat
  err : Option Error
  deriving DecidableEq

/-- The loop `for i := range dims` of `NewArrayIterator`: reads `n` pairs
(Length, LowerBound) starting at `rp`; returns the dimensions and the final
read position. -/
def readDims (src : List UInt8) : Nat → Nat → Run (List ArrayDimension × Nat)
  | 0, rp => .ret ([], rp)
  | n + 1, rp =>
    (readUint32 src rp).bind fun l =>
    (readUint32 src (rp + 4)).bind fun lb =>
    (readDims src n (rp + 8)).bind fun r =>
    .ret ({ Length := int32 l, LowerBound := int32 lb } :: r.1, r.2)

/-- The loop `for _, d := range dims[1:] { elementCount *= d.Length }` on an
`int32` accumulator. -/
def mulLengths (acc : Int) (ds : List ArrayDimension) : Int :=
  ds.foldl (fun a d => int32 (a * d.Length)) acc

/-- Model of `NewArrayIterator(src)`. -/
def NewArrayIterator (src : List UInt8) : Run ArrayStart :=
  if src.length < 12 then
    .ret ⟨[], 0, [], 0, some (.headerTooShort src.length)⟩
  else
    (readUint32 src 0).bind fun numDims =>
    (readUint32 src 4).bind fun _ =>
    (readUint32 src 8).bind fun ElementOID =>
    if src.length < 12 + numDims * 8 then
      .ret ⟨[], 0, [], 0, some (.headerTooShortForDims numDims src.length)⟩
    else
      (readDims src numDims 12).bind fun r =>
      match r.1 with
      | [] => .panic .indexOutOfRange
      | d0 :: rest =>
        (sliceFrom src r.2).bind fun it =>
        .ret ⟨it, mulLengths d0.Length rest, r.1, ElementOID, none⟩

/-- Result tuple of `NextElem` together with the iterator after the call. -/
structure ElemStep where
  isNull : Bool
  elemBytes : Option (List UInt8)
  err : Option Error
  it : ArrayIterator
  deriving DecidableEq

/-- Model of `(*ArrayIterator).NextElem()`. -/
def NextElem (it : ArrayIterator) : Run ElemStep :=
  if it.length < 4 then
    .ret ⟨false, none, some .elementTooShort, it⟩
  else
    (readUint32 it 0).bind fun u =>
    let elemLen : Int := int32 u
    let rp : Int := 4
    if (it.length : Int) < rp + elemLen then
      .ret ⟨false, none, some .elementTooShort, it⟩
    else
      (sliceRange it rp (rp + elemLen)).bind fun elemBytes =>
      (sliceFromInt it (rp + elemLen)).bind fun rest =>
      .ret ⟨false, some elemBytes, none, rest⟩

/-- The struct `MyCompositeRaw` of `composite_bench_test.go`. -/
structure MyCompositeRaw where
  a : Int
  b : Option String
  deriving DecidableEq

/-- Model of `(*MyCompositeRaw).DecodeBinary`: returns nil and leaves the
destination as it is. -/
def MyCompositeRaw.DecodeBinary (dst : MyCompositeRaw) (_src : Option (List UInt8)) :
    MyCompositeRaw × Option Error :=
  (dst, none)

/-- Destination growth shared by both array decoders:
`if len(*dst) < elementCount { *dst = append(*dst, make(T, elementCount-len(*dst))...) }`. -/
def growTo {α : Type} (zero : α) (dst : List α) (elementCount : Int) : List α :=
  if (dst.length : Int) < elementCount then
    dst ++ List.replicate (elementCount - dst.length).toNat zero
  else dst

/-- The loop `for i := 0; len(it) > 0; i++` of
`(*MyCompositeRawArray).DecodeBinary`, from position `i` on. -/
def MyCompositeRawArray.drain :
    Nat → Nat → ArrayIterator → List MyCompositeRaw → Run (List MyCompositeRaw × Option Error)
  | fuel, i, it, dst =>
    if 0 < it.length then
      match fuel with
      | 0 => .outOfFuel
      | fuel + 1 =>
        (NextElem it).bind fun s =>
        match s.err with
        | some e => .ret (dst, some e)
        | none =>
          if s.isNull then .ret (dst, some (.nullElement i))
          else
            match dst[i]? with
            | none => .panic .indexOutOfRange
            | some x =>
              match MyCompositeRaw.DecodeBinary x s.elemBytes with
              | (x1, some e) => .ret (dst.set i x1, some e)
              | (x1, none) => MyCompositeRawArray.drain fuel (i + 1) s.it (dst.set i x1)
    else .ret (dst, none)

/-- Model of `(*MyCompositeRawArray).DecodeBinary(ci, src)`: the destination
after the call and the returned error. -/
def MyCompositeRawArray.DecodeBinary (dst : List MyCompositeRaw) (src : Option (List UInt8)) :
    Run (List MyCompositeRaw × Option Error) :=
  match src with
  | none => .ret ([], none)
  | some bytes =>
    (NewArrayIterator bytes).bind fun h =>
    match h.err with
    | some e => .ret (dst, some e)
    | none =>
      MyCompositeRawArray.drain h.it.length 0 h.it (growTo ⟨0, none⟩ dst h.elementCount)

/-- The struct `MyType` of `custom_composite_test.go`; the Go string behind
`b` is its byte sequence. -/
structure MyType where
  a : Int
  b : Option (List UInt8)
  deriving DecidableEq

/-- Model of the decoder returned by `Array(alloc, decode)`. The callbacks
act on a caller state `σ`: `alloc nullArray elementCount dims oid` and
`decode isNull pos src`. -/
def Array.drain {σ : Type}
    (decode : Bool → Nat → Option (List UInt8) → σ → Run (σ × Option Error)) :
    Nat → Nat → ArrayIterator → σ → Run (σ × Option Error)
  | fuel, i, it, st =>
    if 0 < it.length then
      match fuel with
      | 0 => .outOfFuel
      | fuel + 1 =>
        (NextElem it).bind fun s =>
        match s.err with
        | some e => .ret (st, some e)
        | none =>
          (decode s.isNull i s.elemBytes st).bind fun r =>
          match r.2 with
          | some e => .ret (r.1, some e)
          | none => Array.drain decode fuel (i + 1) s.it r.1
    else .ret (st, none)

/-- Model of `Array(alloc, decode)` applied to `src`. -/
def Array {σ : Type}
    (alloc : Bool → Int → List ArrayDimension → Nat → σ → Run (σ × Option Error))
    (decode : Bool → Nat → Option (List UInt8) → σ → Run (σ × Option Error))
    (st : σ) (src : Option (List UInt8)) : Run (σ × Option Error) :=
  match src with
  | none => alloc true 0 [] 0 st
  | some bytes =>
    (NewArrayIterator bytes).bind fun h =>
    match h.err with
    | some e => .ret (st, some e)
    | none =>
      (alloc false h.elementCount h.dims h.oid st).bind fun r =>
      match r.2 with
      | some e => .ret (r.1, some e)
      | none => Array.drain decode h.it.length 0 h.it r.1

/-- The 32-byte buffer of the concrete array scenario: ndim=1, containsNull=1,
OID 23, dimension (2,1), frame [4, 00 00 00 0A], frame [-1]. -/
def scenarioBuf : List UInt8 :=
  [0,0,0,1, 0,0,0,1, 0,0,0,23, 0,0,0,2, 0,0,0,1, 0,0,0,4, 0,0,0,10, 255,255,255,255]

/-- A two-dimensional header with lengths 65536 and 65536 and no element bytes. -/
def overflowBuf : List UInt8 :=
  [0,0,0,2, 0,0,0,0, 0,0,0,23, 0,1,0,0, 0,0,0,1, 0,1,0,0, 0,0,0,1]

/-- A header with dimension count 0. -/
def zeroDimBuf : List UInt8 :=
  [0,0,0,0, 0,0,0,0, 0,0,0,23]

/-- A one-dimensional array of one element whose only frame is NULL. -/
def nullOnlyBuf : List UInt8 :=
  [0,0,0,1, 0,0,0,1, 0,0,0,23, 0,0,0,1, 0,0,0,1, 255,255,255,255]

/-- A header with one dimension of length -1 and no element bytes. -/
def negLenBuf : List UInt8 :=
  [0,0,0,1, 0,0,0,0, 0,0,0,23, 255,255,255,255, 0,0,0,1]

/-! ## Observed runs

A run together with the list of observations made on the way. The
observations are ghost state: erasing them gives back the plain model
(`NewArrayIteratorT_out`, `ArrayT_out`). -/

/-- A run and the observations made before it ended. -/
structure Traced (ε α : Type) where
  log : List ε
  out : Run α

/-- A step that makes no observation. -/
def Traced.quiet {ε α : Type} (r : Run α) : Traced ε α := ⟨[], r⟩

/-- A step that makes the observation `e` and then runs `r`. -/
def Traced.emit {ε α : Type} (e : ε) (r : Run α) : Traced ε α := ⟨[e], r⟩

/-- Sequencing of observed runs: the observations of the continuation follow
those of the first run; a run that does not return ends the observations. -/
def Traced.bind {ε α β : Type} (x : Traced ε α) (f : α → Traced ε β) : Traced ε β :=
  match x.out with
  | .ret a => ⟨x.log ++ (f a).log, (f a).out⟩
  | .panic p => ⟨x.log, .panic p⟩
  | .outOfFuel => ⟨x.log, .outOfFuel⟩

/-- The read `binary.BigEndian.Uint32(src[rp:])`, observed: the offset `rp` of
the word (bytes `rp..rp+3`) is logged. -/
def readUint32T (src : List UInt8) (rp : Nat) : Traced Nat Nat :=
  Traced.emit rp (readUint32 src rp)

/-- The dimension loop of `NewArrayIterator` with its reads observed. -/
def readDimsT (src : List UInt8) : Nat → Nat → Traced Nat (List ArrayDimension × Nat)
  | 0, rp => Traced.quiet (.ret ([], rp))
  | n + 1, rp =>
    (readUint32T src rp).bind fun l =>
    (readUint32T src (rp + 4)).bind fun lb =>
    (readDimsT src n (rp + 8)).bind fun r =>
    Traced.quiet (.ret ({ Length := int32 l, LowerBound := int32 lb } :: r.1, r.2))

/-- The function `NewArrayIterator(src)` with its word reads observed: the log
lists the offsets of the words read from `src`, in order. -/
def NewArrayIteratorT (src : List UInt8) : Traced Nat ArrayStart :=
  if src.length < 12 then
    Traced.quiet (.ret ⟨[], 0, [], 0, some (.headerTooShort src.length)⟩)
  else
    (readUint32T src 0).bind fun numDims =>
    (readUint32T src 4).bind fun _ =>
    (readUint32T src 8).bind fun ElementOID =>
    if src.length < 12 + numDims * 8 then
      Traced.quiet (.ret ⟨[], 0, [], 0, some (.headerTooShortForDims numDims src.length)⟩)
    else
      (readDimsT src numDims 12).bind fun r =>
      match r.1 with
      | [] => Traced.quiet (.panic .indexOutOfRange)
      | d0 :: rest =>
        (Traced.quiet (sliceFrom src r.2)).bind fun it =>
        Traced.quiet (.ret ⟨it, mulLengths d0.Length rest, r.1, ElementOID, none⟩)

/-- Calls an array decoder makes, in the order of the source: the header
parse, the header callback, `NextElem` in loop iteration `pos`, and the element
callback with its arguments. -/
inductive Call where
  /-- The call `NewArrayIterator(src)`. -/
  | newIterator
  /-- The header callback `alloc(nullArray, elementCount, dims, oid)`. -/
  | alloc (nullArray : Bool) (elementCount : Int) (dims : List ArrayDimension) (oid : Nat)
  /-- The call `it.NextElem()` in the loop iteration with index `pos`. -/
  | nextElem (pos : Nat)
  /-- The element callback `decode(isNull, pos, ci, src)`. -/
  | decode (isNull : Bool) (pos : Nat) (src : Option (List UInt8))
  deriving DecidableEq

/-- How a call ended for its caller. -/
inductive Ended where
  /-- The call returned, with this error value. -/
  | returned (err : Option Error)
  /-- The call did not return. -/
  | aborted
  deriving DecidableEq

/-- A call and how it ended. -/
structure Event where
  call : Call
  ended : Ended
  deriving DecidableEq

/-- How a run ended, given where its result carries the error. -/
def endedBy {α : Type} (err : α → Option Error) (r : Run α) : Ended :=
  match r with
  | .ret a => .returned (err a)
  | .panic _ => .aborted
  | .outOfFuel => .aborted

/-- The loop of `Array(alloc, decode)` with its calls observed. -/
def Array.drainT {σ : Type}
    (decode : Bool → Nat → Option (List UInt8) → σ → Run (σ × Option Error)) :
    Nat → Nat → ArrayIterator → σ → Traced Event (σ × Option Error)
  | fuel, i, it, st =>
    if 0 < it.length then
      match fuel with
      | 0 => Traced.quiet .outOfFuel
      | fuel + 1 =>
        (Traced.emit ⟨.nextElem i, endedBy ElemStep.err (NextElem it)⟩ (NextElem it)).bind fun s =>
        match s.err with
        | some e => Traced.quiet (.ret (st, some e))
        | none =>
          (Traced.emit ⟨.decode s.isNull i s.elemBytes,
              endedBy Prod.snd (decode s.isNull i s.elemBytes st)⟩
            (decode s.isNull i s.elemBytes st)).bind fun r =>
          match r.2 with
          | some e => Traced.quiet (.ret (r.1, some e))
          | none => Array.drainT decode fuel (i + 1) s.it r.1
    else Traced.quiet (.ret (st, none))

/-- The decoder `Array(alloc, decode)` applied to `src`, with its calls
observed. -/
def ArrayT {σ : Type}
    (alloc : Bool → Int → List ArrayDimension → Nat → σ → Run (σ × Option Error))
    (decode : Bool → Nat → Option (List UInt8) → σ → Run (σ × Option Error))
    (st : σ) (src : Option (List UInt8)) : Traced Event (σ × Option Error) :=
  match src with
  | none =>
    Traced.emit ⟨.alloc true 0 [] 0, endedBy Prod.snd (alloc true 0 [] 0 st)⟩
      (alloc true 0 [] 0 st)
  | some bytes =>
    (Traced.emit ⟨.newIterator, endedBy ArrayStart.err (NewArrayIterator bytes)⟩
      (NewArrayIterator bytes)).bind fun h =>
    match h.err with
    | some e => Traced.quiet (.ret (st, some e))
    | none =>
      (Traced.emit ⟨.alloc false h.elementCount h.dims h.oid,
          endedBy Prod.snd (alloc false h.elementCount h.dims h.oid st)⟩
        (alloc false h.elementCount h.dims h.oid st)).bind fun r =>
      match r.2 with
      | some e => Traced.quiet (.ret (r.1, some e))
      | none => Array.drainT decode h.it.length 0 h.it r.1

/-- The part of `(*MyCompositeRawArray).DecodeBinary` before its loop, seen as
a header callback (`MyCompositeRawArray.DecodeBinary_eq_Array`). -/
def MyCompositeRawArray.alloc (isNull : Bool) (elementCount : Int)
    (_dims : List ArrayDimension) (_oid : Nat) (dst : List MyCompositeRaw) :
    Run (List MyCompositeRaw × Option Error) :=
  if isNull then .ret ([], none) else .ret (growTo ⟨0, none⟩ dst elementCount, none)

/-- The loop body of `(*MyCompositeRawArray).DecodeBinary` after `NextElem`,
seen as an element callback (`MyCompositeRawArray.DecodeBinary_eq_Array`). -/
def MyCompositeRawArray.decode (isNull : Bool) (i : Nat) (elemBytes : Option (List UInt8))
    (dst : List MyCompositeRaw) : Run (List MyCompositeRaw × Option Error) :=
  if isNull then .ret (dst, some (.nullElement i))
  else
    match dst[i]? with
    | none => .panic .indexOutOfRange
    | some x =>
      .ret (dst.set i (MyCompositeRaw.DecodeBinary x elemBytes).1,
        (MyCompositeRaw.DecodeBinary x elemBytes).2)

/-- Loop indices at which `NextElem` was called, in order. -/
def nextElemPositions (log : List Event) : List Nat :=
  log.filterMap fun e => match e.call with
    | .nextElem pos => some pos
    | _ => none

/-- Positions passed to the element callback, in order. -/
def decodePositions (log : List Event) : List Nat :=
  log.filterMap fun e => match e.call with
    | .decode _ pos _ => some pos
    | _ => none

/-- An array of declared length 2 that holds a single frame of length 0. -/
def oneFrameBuf : List UInt8 :=
  [0,0,0,1, 0,0,0,0, 0,0,0,23, 0,0,0,2, 0,0,0,1, 0,0,0,0]

/-- An array of declared length 1 that holds two frames of length 0. -/
def twoFrameBuf : List UInt8 :=
  [0,0,0,1, 0,0,0,0, 0,0,0,23, 0,0,0,1, 0,0,0,1, 0,0,0,0, 0,0,0,0]

/-- Callbacks that do nothing and return nil, on a state without content. -/
def idleAlloc (_ : Bool) (_ : Int) (_ : List ArrayDimension) (_ : Nat) (st : Unit) :
    Run (Unit × Option Error) := .ret (st, none)

/-- Element callback that does nothing and returns nil. -/
def idleDecode (_ : Bool) (_ : Nat) (_ : Option (List UInt8)) (st : Unit) :
    Run (Unit × Option Error) := .ret (st, none)

/-- The error discipline of an observed decoder run: an error that a call
returned is the error the run returns; every call but the last one returned a
nil error; and an error the run returns is one that a call returned. -/
def AbortsOnFirstError {σ : Type} (t : Traced Event (σ × Option Error)) : Prop :=
  (∀ ev ∈ t.log, ∀ e, ev.ended = .returned (some e) → ∃ st, t.out = .ret (st, some e)) ∧
  (∀ ev ∈ t.log.dropLast, ev.ended = .returned none) ∧
  (∀ st e, t.out = .ret (st, some e) → ∃ ev ∈ t.log, ev.ended = .returned (some e))

/-! ## Composite writer and scanner

`RecordStart`, `RecordAdd`, `RecordAddNull` and `ScanRowValue` are called by
the sources (`MyCompositeRaw.EncodeBinary`, `MyType.DecodeBinary`) and
defined outside them. -/

/-- Modelled from the spec: the big-endian append of a 32-bit word that the
Composite Writer uses for the field count, the field OIDs and the lengths
("appends big-endian uint32"); the append helper is not among the sources.
The low 32 bits of `n` are written. -/
def putUint32 (n : Nat) : List UInt8 :=
  [UInt8.ofNat (n / 16777216 % 256), UInt8.ofNat (n / 65536 % 256),
    UInt8.ofNat (n / 256 % 256), UInt8.ofNat (n % 256)]

/-- Modelled from the spec: `RecordStart(buf, fieldCount)`, missing from the
sources: "appends big-endian uint32 fieldCount; returns extended buffer
handle". -/
def RecordStart (buf : List UInt8) (fieldCount : Nat) : List UInt8 :=
  buf ++ putUint32 fieldCount

/-- Modelled from the spec: `RecordAdd(buf, fieldOID, fieldBytes)`, missing
from the sources: "appends big-endian uint32 fieldOID, big-endian int32 length
= len(fieldBytes), then the bytes". -/
def RecordAdd (buf : List UInt8) (fieldOID : Nat) (fieldBytes : List UInt8) : List UInt8 :=
  buf ++ putUint32 fieldOID ++ putUint32 fieldBytes.length ++ fieldBytes

/-- Modelled from the spec: `RecordAddNull(buf, fieldOID)`, missing from the
sources: "appends fieldOID, then int32 −1, no payload". -/
def RecordAddNull (buf : List UInt8) (fieldOID : Nat) : List UInt8 :=
  buf ++ putUint32 fieldOID ++ putUint32 4294967295

/-- A destination decoder of `ScanRowValue`: it is called with the payload, or
with nil (`none`) for NULL, and acts on a caller state. -/
abbrev FieldDecoder (σ : Type) := Option (List UInt8) → σ → Run (σ × Option Error)

/-- Modelled from the spec: steps 3 and 4 of `ScanRowValue`, missing from the
sources: for each destination decoder read fieldOID (not checked) and the
int32 length L; "if L = −1 invoke destinationDecoders[i] with a NULL indication
and no payload; else slice the next L bytes and invoke destinationDecoders[i]
with that payload; advance by 8 + max(L,0)"; "if any decoder call fails, abort
immediately and propagate that error unchanged". A field header or payload
that does not fit the remaining bytes is `MalformedInput` ("every length is
checked against remaining buffer size before use"). -/
def scanFields {σ : Type} : List (FieldDecoder σ) → List UInt8 → σ → Run (σ × Option Error)
  | [], _, st => .ret (st, none)
  | d :: ds, buf, st =>
    if buf.length < 8 then .ret (st, some .malformedInput)
    else
      (readUint32 buf 0).bind fun _ =>
      (readUint32 buf 4).bind fun u =>
      if int32 u = -1 then
        (d none st).bind fun r =>
        match r.2 with
        | some e => .ret (r.1, some e)
        | none => scanFields ds (buf.drop 8) r.1
      else if int32 u < 0 ∨ (buf.length : Int) < 8 + int32 u then
        .ret (st, some .malformedInput)
      else
        (d (some ((buf.drop 8).take (int32 u).toNat)) st).bind fun r =>
        match r.2 with
        | some e => .ret (r.1, some e)
        | none => scanFields ds (buf.drop (8 + (int32 u).toNat)) r.1

/-- Modelled from the spec: `ScanRowValue(buffer, destinationDecoders[N])`,
missing from the sources: read the big-endian field count F from the front;
"if F ≠ N: fail with TypeMismatch; no decoder is invoked"; then the fields in
order; trailing bytes are not validated; on an error the destination is not
populated ("all-or-nothing"). -/
def ScanRowValue {σ : Type} (buffer : List UInt8) (decoders : List (FieldDecoder σ)) (st : σ) :
    Run (σ × Option Error) :=
  if buffer.length < 4 then .ret (st, some .malformedInput)
  else
    (readUint32 buffer 0).bind fun F =>
    if F ≠ decoders.length then .ret (st, some (.typeMismatch decoders.length F))
    else
      (scanFields decoders (buffer.drop 4) st).bind fun r =>
      match r.2 with
      | some e => .ret (st, some e)
      | none => .ret (r.1, none)

/-- One field of a composite value: its OID and its bytes, `none` for NULL. -/
abbrev Field := Nat × Option (List UInt8)

/-- The append call for one field: `RecordAdd`, or `RecordAddNull` for NULL. -/
def addField (buf : List UInt8) (f : Field) : List UInt8 :=
  match f.2 with
  | some fieldBytes => RecordAdd buf f.1 fieldBytes
  | none => RecordAddNull buf f.1

/-- The buffer built by `RecordStart(buf, N)` followed by one `RecordAdd` /
`RecordAddNull` per field. -/
def encodeRecord (buf : List UInt8) (fields : List Field) : List UInt8 :=
  fields.foldl addField (RecordStart buf fields.length)

/-- The calls the round trip expects: decoder `i` is called once with the
bytes of field `i`, in order, stopping at the first decoder error. -/
def applyDecoders {σ : Type} :
    List (FieldDecoder σ) → List (Option (List UInt8)) → σ → Run (σ × Option Error)
  | d :: ds, a :: as, st =>
    (d a st).bind fun r =>
    match r.2 with
    | some e => .ret (r.1, some e)
    | none => applyDecoders ds as r.1
  | _, _, st => .ret (st, none)

/-- Decoder number `i` of the round trip: it appends the index and what it was
called with to the state and returns nil. -/
def recordingDecoder (i : Nat) : FieldDecoder (List (Nat × Option (List UInt8))) :=
  fun arg log => .ret (log ++ [(i, arg)], none)

/-- The decoders `recordingDecoder i` for the indices `k, k+1, ..., k+n-1`. -/
def recordingDecoders (k n : Nat) : List (FieldDecoder (List (Nat × Option (List UInt8)))) :=
  (List.range' k n).map recordingDecoder

/-- The pairs (index, bytes or NULL) of the fields, numbered from `k`. -/
def numbered (k : Nat) : List Field → List (Nat × Option (List UInt8))
  | [] => []
  | f :: fs => (k, f.2) :: numbered (k + 1) fs

/-! ## The composite type `MyType` and its array decoder

`(*MyType).DecodeBinary` scans a row into a `pgtype.Int4` and a `pgtype.Text`
and assigns them to the fields. The two scalar codecs are collaborators
defined outside the sources. -/

/-- The type `pgtype.Status`. -/
inductive Status where
  | undefined
  | null
  | present
  deriving DecidableEq

/-- The value `pgtype.Int4`, with its fields `Int` and `Status`. -/
structure Int4 where
  value : Int
  status : Status
  deriving DecidableEq

/-- The value `pgtype.Text`, with its fields `String` (a byte sequence) and
`Status`. -/
structure Text where
  value : List UInt8
  status : Status
  deriving DecidableEq

/-- Modelled from the spec: the `Decode` capability of the int4 field codec,
missing from the sources ("Decode(contextHandle, payloadBytesOrNull)"): a NULL
indication gives a NULL value, the payload of an int4 is its 4-byte big-endian
encoding (the concrete scenarios: the 4-byte encoding of 7, `0x0000000A` for
10), and a payload of another length is an error. -/
def Int4.DecodeBinary (dst : Int4) (src : Option (List UInt8)) : Run (Int4 × Option Error) :=
  match src with
  | none => .ret (⟨0, .null⟩, none)
  | some bytes =>
    if bytes.length ≠ 4 then .ret (dst, some (.invalidLength bytes.length))
    else (Uint32 bytes).bind fun n => .ret (⟨int32 n, .present⟩, none)

/-- Modelled from the spec: the `Decode` capability of the text field codec,
missing from the sources: a NULL indication gives a NULL value, a payload is
the text itself. -/
def Text.DecodeBinary (_dst : Text) (src : Option (List UInt8)) : Run (Text × Option Error) :=
  match src with
  | none => .ret (⟨[], .null⟩, none)
  | some bytes => .ret (⟨bytes, .present⟩, none)

/-- Modelled from the spec: `a.AssignTo(&dst.a)` for the `int32` field,
missing from the sources; the source says of the field "NULL will cause
decoding error" and of the call "only lossless assignments will succeed". -/
def Int4.AssignTo (src : Int4) : Except Error Int :=
  match src.status with
  | .present => .ok src.value
  | _ => .error .cannotAssign

/-- Modelled from the spec: `b.AssignTo(&dst.b)` for the `*string` field,
missing from the sources; the source says "there can be NULL in this position"
and "AssignTo also deals with null value handling": NULL gives a nil pointer. -/
def Text.AssignTo (src : Text) : Except Error (Option (List UInt8)) :=
  match src.status with
  | .present => .ok (some src.value)
  | .null => .ok none
  | .undefined => .error .cannotAssign

/-- The destination decoder `&a` of the call `ScanRowValue(ci, src, &a, &b)`. -/
def MyType.decodeA : FieldDecoder (Int4 × Text) := fun src st =>
  (Int4.DecodeBinary st.1 src).bind fun r => .ret ((r.1, st.2), r.2)

/-- The destination decoder `&b` of the call `ScanRowValue(ci, src, &a, &b)`. -/
def MyType.decodeB : FieldDecoder (Int4 × Text) := fun src st =>
  (Text.DecodeBinary st.2 src).bind fun r => .ret ((st.1, r.1), r.2)

/-- Model of `(*MyType).DecodeBinary`: a nil source is an error; otherwise
`pgtype.ScanRowValue(ci, src, &a, &b)` on `a := pgtype.Int4{}` and
`b := pgtype.Text{}`, then `a.AssignTo(&dst.a)` and `b.AssignTo(&dst.b)`, each
error returned at once. -/
def MyType.DecodeBinary (dst : MyType) (src : Option (List UInt8)) :
    Run (MyType × Option Error) :=
  match src with
  | none => .ret (dst, some .nullValue)
  | some bytes =>
    (ScanRowValue bytes [MyType.decodeA, MyType.decodeB]
      ((⟨0, .undefined⟩ : Int4), (⟨[], .undefined⟩ : Text))).bind fun r =>
    match r.2 with
    | some e => .ret (dst, some e)
    | none =>
      match Int4.AssignTo r.1.1 with
      | .error e => .ret (dst, some e)
      | .ok a =>
        match Text.AssignTo r.1.2 with
        | .error e => .ret ({ dst with a := a }, some e)
        | .ok b => .ret ({ a := a, b := b }, none)

/-- The `alloc` callback of `MyTypeArrayDecoder`. -/
def MyTypeArrayDecoder.alloc (isNull : Bool) (elementCount : Int)
    (_dims : List ArrayDimension) (_oid : Nat) (dst : List MyType) :
    Run (List MyType × Option Error) :=
  if isNull then .ret ([], none) else .ret (growTo ⟨0, none⟩ dst elementCount, none)

/-- The `decode` callback of `MyTypeArrayDecoder`. -/
def MyTypeArrayDecoder.decode
    (isNull : Bool) (i : Nat) (elemBytes : Option (List UInt8)) (dst : List MyType) :
    Run (List MyType × Option Error) :=
  if isNull then .ret (dst, some (.nullElement i))
  else
    match dst[i]? with
    | none => .panic .indexOutOfRange
    | some x => (MyType.DecodeBinary x elemBytes).bind fun r => .ret (dst.set i r.1, r.2)

/-- Model of `MyTypeArrayDecoder(dst).DecodeBinary(ci, src)`. -/
def MyTypeArrayDecoder (dst : List MyType) (src : Option (List UInt8)) :
    Run (List MyType × Option Error) :=
  Array MyTypeArrayDecoder.alloc MyTypeArrayDecoder.decode dst src

/-- The 24 bytes of the row (a = 7, b = NULL): field count 2, field (OID 23,
length 4, 00 00 00 07), field (OID 25, length -1). -/
def rowBytes : List UInt8 :=
  [0,0,0,2, 0,0,0,23, 0,0,0,4, 0,0,0,7, 0,0,0,25, 255,255,255,255]

/-- An array of declared length 2 whose frame 0 holds `rowBytes` and whose
frame 1 is NULL: ndim=1, containsNull=1, OID 16384, dimension (2,1), frame
[24, rowBytes], frame [-1]. -/
def rowThenNullBuf : List UInt8 :=
  [0,0,0,1, 0,0,0,1, 0,0,64,0, 0,0,0,2, 0,0,0,1,
   0,0,0,24, 0,0,0,2, 0,0,0,23, 0,0,0,4, 0,0,0,7, 0,0,0,25, 255,255,255,255,
   255,255,255,255]

/-- An array of declared length 1 that holds two frames, each with
`rowBytes`: ndim=1, containsNull=0, OID 16384, dimension (1,1), frame
[24, rowBytes], frame [24, rowBytes]. -/
def twoRowBuf : List UInt8 :=
  [0,0,0,1, 0,0,0,0, 0,0,64,0, 0,0,0,1, 0,0,0,1,
   0,0,0,24, 0,0,0,2, 0,0,0,23, 0,0,0,4, 0,0,0,7, 0,0,0,25, 255,255,255,255,
   0,0,0,24, 0,0,0,2, 0,0,0,23, 0,0,0,4, 0,0,0,7, 0,0,0,25, 255,255,255,255]

/-- The wire frame of a non-NULL array element: its big-endian int32 length
and its bytes, the layout `NextElem` reads. -/
def elemFrame (payload : List UInt8) : List UInt8 :=
  putUint32 payload.length ++ payload

/-- Iterator bytes that hold the frames of the given payloads, in order. -/
def elemFrames (payloads : List (List UInt8)) : List UInt8 :=
  (payloads.map elemFrame).flatten

/-! ## Properties of the byte reads -/

theorem Uint32_of_length (b : List UInt8) (h : 4 ≤ b.length) :
    ∃ u, Uint32 b = .ret u ∧ u < 4294967296 := by
  match b, h with
  | b0 :: b1 :: b2 :: b3 :: _, _ =>
    refine ⟨_, rfl, ?_⟩
    have h0 := b0.toNat_lt
    have h1 := b1.toNat_lt
    have h2 := b2.toNat_lt
    have h3 := b3.toNat_lt
    simp at h0 h1 h2 h3
    omega

theorem readUint32_of_length (src : List UInt8) (rp : Nat) (h : rp + 4 ≤ src.length) :
    ∃ u, readUint32 src rp = .ret u ∧ u < 4294967296 := by
  have hle : rp ≤ src.length := by omega
  have hd : 4 ≤ (src.drop rp).length := by simp; omega
  obtain ⟨u, hu, hlt⟩ := Uint32_of_length _ hd
  exact ⟨u, by simp [readUint32, sliceFrom, hle, Run.bind, hu], hlt⟩

theorem readUint32_zero (src : List UInt8) : readUint32 src 0 = Uint32 src := by
  simp [readUint32, sliceFrom, Run.bind]

theorem readDims_of_length (src : List UInt8) (n : Nat) :
    ∀ rp, rp + 8 * n ≤ src.length →
      ∃ ds, readDims src n rp = .ret (ds, rp + 8 * n) ∧ ds.length = n ∧
        ∀ i, i < n → ∃ l lb, readUint32 src (rp + 8 * i) = .ret l ∧
          readUint32 src (rp + 4 + 8 * i) = .ret lb ∧
          l < 4294967296 ∧
          ds[i]? = some { Length := int32 l, LowerBound := int32 lb } := by
  induction n with
  | zero =>
    intro rp _
    exact ⟨[], rfl, rfl, fun i hi => absurd hi (Nat.not_lt_zero i)⟩
  | succ n ih =>
    intro rp h
    obtain ⟨l, hl, hlt⟩ := readUint32_of_length src rp (by omega)
    obtain ⟨lb, hlb, _⟩ := readUint32_of_length src (rp + 4) (by omega)
    obtain ⟨ds, hds, hlen, hget⟩ := ih (rp + 8) (by omega)
    refine ⟨{ Length := int32 l, LowerBound := int32 lb } :: ds, ?_, by simp [hlen], ?_⟩
    · simp only [readDims, hl, hlb, hds, Run.bind]
      congr 2
      omega
    · intro i hi
      cases i with
      | zero => exact ⟨l, lb, by simpa using hl, by simpa using hlb, hlt, by simp⟩
      | succ j =>
        obtain ⟨l1, lb1, h1, h2, h3, h4⟩ := hget j (by omega)
        refine ⟨l1, lb1, ?_, ?_, h3, by simpa using h4⟩
        · rw [← h1]; congr 1; omega
        · rw [← h2]; congr 1; omega

/-- What `NewArrayIterator` returns on a buffer that holds the whole header
of a positive number of dimensions. -/
theorem NewArrayIterator_of_header (src : List UInt8) (D oid : Nat)
    (hD : readUint32 src 0 = .ret D) (hoid : readUint32 src 8 = .ret oid)
    (hpos : 1 ≤ D) (hlen : 12 + 8 * D ≤ src.length) :
    ∃ d0 rest, readDims src D 12 = .ret (d0 :: rest, 12 + 8 * D) ∧
      NewArrayIterator src =
        .ret ⟨src.drop (12 + 8 * D), mulLengths d0.Length rest, d0 :: rest, oid, none⟩ := by
  obtain ⟨ds, hds, hdl, _⟩ := readDims_of_length src D 12 hlen
  obtain ⟨c, hc, _⟩ := readUint32_of_length src 4 (by omega)
  match ds, hdl with
  | [], hdl => simp at hdl; omega
  | d0 :: rest, _ =>
    refine ⟨d0, rest, hds, ?_⟩
    have h12 : ¬ src.length < 12 := by omega
    have h2 : ¬ src.length < 12 + D * 8 := by omega
    have h3 : 12 + 8 * D ≤ src.length := hlen
    simp [NewArrayIterator, h12, hD, hc, hoid, Run.bind, h2, hds, sliceFrom, h3]

/-- Inversion of an accepted call: the buffer holds the whole header and the
dimension count is positive. -/
theorem NewArrayIterator_accepted (src : List UInt8) (r : ArrayStart)
    (h : NewArrayIterator src = .ret r) (he : r.err = none) :
    ∃ D oid, readUint32 src 0 = .ret D ∧ readUint32 src 8 = .ret oid ∧ 1 ≤ D ∧
      12 + 8 * D ≤ src.length := by
  by_cases h12 : src.length < 12
  · simp [NewArrayIterator, h12] at h
    subst h
    simp at he
  · obtain ⟨D, hD, _⟩ := readUint32_of_length src 0 (by omega)
    obtain ⟨c, hc, _⟩ := readUint32_of_length src 4 (by omega)
    obtain ⟨oid, hoid, _⟩ := readUint32_of_length src 8 (by omega)
    by_cases h2 : src.length < 12 + D * 8
    · simp [NewArrayIterator, h12, hD, hc, hoid, Run.bind, h2] at h
      subst h
      simp at he
    · refine ⟨D, oid, hD, hoid, ?_, by omega⟩
      by_contra hz
      have hz0 : D = 0 := by omega
      subst hz0
      simp [NewArrayIterator, h12, hD, hc, hoid, Run.bind, readDims] at h

/-- Claim C1. For a buffer shorter than 12 bytes, or one whose first four
bytes decode to a dimension count `D ≥ 1`, `NewArrayIterator` returns (it does
not panic) and its error is non-nil exactly when `len(src) < 12 + 8*D`; in the
other case the error is nil. -/
theorem C1_NewArrayIterator_error_iff (src : List UInt8) (D : Nat)
    (h : src.length < 12 ∨ (Uint32 src = .ret D ∧ 1 ≤ D)) :
    ∃ r, NewArrayIterator src = .ret r ∧
      (r.err ≠ none ↔ src.length < 12 + 8 * D) ∧
      (12 + 8 * D ≤ src.length → r.err = none) := by
  by_cases h12 : src.length < 12
  · exact ⟨⟨[], 0, [], 0, some (.headerTooShort src.length)⟩, by simp [NewArrayIterator, h12],
      ⟨fun _ => by omega, fun _ => by simp⟩, fun hle => by omega⟩
  · obtain ⟨hD, hpos⟩ := h.resolve_left h12
    rw [← readUint32_zero] at hD
    obtain ⟨c, hc, _⟩ := readUint32_of_length src 4 (by omega)
    obtain ⟨oid, hoid, _⟩ := readUint32_of_length src 8 (by omega)
    by_cases h2 : src.length < 12 + 8 * D
    · have h2' : src.length < 12 + D * 8 := by omega
      exact ⟨⟨[], 0, [], 0, some (.headerTooShortForDims D src.length)⟩,
        by simp [NewArrayIterator, h12, hD, hc, hoid, Run.bind, h2'],
        ⟨fun _ => h2, fun _ => by simp⟩, fun hle => by omega⟩
    · obtain ⟨d0, rest, _, hr⟩ := NewArrayIterator_of_header src D oid hD hoid hpos (by omega)
      exact ⟨_, hr, ⟨fun hne => absurd rfl hne, fun hlt => absurd hlt h2⟩, fun _ => rfl⟩

/-- Witness for C1 on the scenario buffer (32 bytes, `D = 1`). -/
theorem C1_NewArrayIterator_error_iff_witness :
    ∃ r, NewArrayIterator scenarioBuf = .ret r ∧
      (r.err ≠ none ↔ scenarioBuf.length < 12 + 8 * 1) ∧
      (12 + 8 * 1 ≤ scenarioBuf.length → r.err = none) :=
  C1_NewArrayIterator_error_iff scenarioBuf 1 (Or.inr ⟨by decide, by decide⟩)

/-- Claim C2. On an accepted buffer with dimension count `D`: the OID is the
big-endian word at bytes 8..11, there are exactly `D` dimensions, dimension
`i` has the int32 words at offsets `12+8i` and `16+8i` as Length and
LowerBound, and the iterator is the suffix `src[12+8*D:]`, so `src` is its
first `12+8*D` bytes followed by the iterator. -/
theorem C2_NewArrayIterator_header (src : List UInt8) (r : ArrayStart)
    (h : NewArrayIterator src = .ret r) (he : r.err = none) :
    ∃ D, Uint32 src = .ret D ∧ readUint32 src 8 = .ret r.oid ∧ r.dims.length = D ∧
      (∀ i, i < D → ∃ l lb, readUint32 src (12 + 8 * i) = .ret l ∧
        readUint32 src (16 + 8 * i) = .ret lb ∧
        r.dims[i]? = some { Length := int32 l, LowerBound := int32 lb }) ∧
      r.it = src.drop (12 + 8 * D) ∧
      src = src.take (12 + 8 * D) ++ r.it ∧
      (src.take (12 + 8 * D)).length = 12 + 8 * D := by
  obtain ⟨D, oid, hD, hoid, hpos, hlen⟩ := NewArrayIterator_accepted src r h he
  obtain ⟨d0, rest, hds, hr⟩ := NewArrayIterator_of_header src D oid hD hoid hpos hlen
  obtain ⟨ds, hds2, hdl, hget⟩ := readDims_of_length src D 12 hlen
  rw [hds] at hds2
  have hdseq : d0 :: rest = ds := by
    have := Run.ret.inj hds2
    exact congrArg Prod.fst this
  rw [hr] at h
  have hreq := Run.ret.inj h
  subst hreq
  refine ⟨D, by rw [← readUint32_zero]; exact hD, hoid, by simp only [hdseq, hdl], ?_, rfl,
    by simp, by simp; omega⟩
  intro i hi
  obtain ⟨l, lb, h1, h2, _, h4⟩ := hget i hi
  refine ⟨l, lb, h1, ?_, by simpa only [hdseq] using h4⟩
  rw [← h2]

/-- Witness for C2 on the scenario buffer. -/
theorem C2_NewArrayIterator_header_witness :
    ∃ D, Uint32 scenarioBuf = .ret D ∧
      readUint32 scenarioBuf 8 = .ret 23 ∧
      [({ Length := 2, LowerBound := 1 } : ArrayDimension)].length = D ∧
      (∀ i, i < D → ∃ l lb, readUint32 scenarioBuf (12 + 8 * i) = .ret l ∧
        readUint32 scenarioBuf (16 + 8 * i) = .ret lb ∧
        [({ Length := 2, LowerBound := 1 } : ArrayDimension)][i]? =
          some { Length := int32 l, LowerBound := int32 lb }) ∧
      ([0,0,0,4, 0,0,0,10, 255,255,255,255] : List UInt8) = scenarioBuf.drop (12 + 8 * D) ∧
      scenarioBuf = scenarioBuf.take (12 + 8 * D) ++ [0,0,0,4, 0,0,0,10, 255,255,255,255] ∧
      (scenarioBuf.take (12 + 8 * D)).length = 12 + 8 * D :=
  C2_NewArrayIterator_header scenarioBuf
    ⟨[0,0,0,4, 0,0,0,10, 255,255,255,255], 2, [⟨2, 1⟩], 23, none⟩ (by decide) rfl

/-! ## Element count -/

theorem int32_emod (x : Int) : int32 x % 4294967296 = x % 4294967296 := by
  unfold int32
  omega

theorem int32_congr (x y : Int) (h : x % 4294967296 = y % 4294967296) : int32 x = int32 y := by
  unfold int32
  omega

theorem int32_of_range (x : Int) (h1 : -2147483648 ≤ x) (h2 : x < 2147483648) : int32 x = x := by
  unfold int32
  omega

theorem int32_range (x : Int) : -2147483648 ≤ int32 x ∧ int32 x < 2147483648 := by
  unfold int32
  omega

theorem int32_mul_int32 (a b : Int) : int32 (int32 a * b) = int32 (a * b) := by
  apply int32_congr
  rw [Int.mul_emod, int32_emod, ← Int.mul_emod]

/-- The int32 accumulation of the lengths is the wrapped product. -/
theorem mulLengths_eq (ds : List ArrayDimension) :
    ∀ x : Int, mulLengths (int32 x) ds = int32 (x * (ds.map ArrayDimension.Length).prod) := by
  induction ds with
  | nil => intro x; simp [mulLengths]
  | cons d ds ih =>
    intro x
    have hstep : mulLengths (int32 x) (d :: ds) = mulLengths (int32 (int32 x * d.Length)) ds := rfl
    rw [hstep, int32_mul_int32, ih]
    simp [mul_assoc]

/-- Counterexample to claim C3 as stated: the header with lengths 65536 and
65536 is accepted with elementCount 0, while the product of the returned
lengths is 4294967296. -/
theorem C3_elementCount_product_counterexample :
    ∃ r, NewArrayIterator overflowBuf = .ret r ∧ r.err = none ∧
      r.elementCount = 0 ∧ (r.dims.map ArrayDimension.Length).prod = 4294967296 ∧
      r.elementCount ≠ (r.dims.map ArrayDimension.Length).prod :=
  ⟨⟨[], 0, [⟨65536, 1⟩, ⟨65536, 1⟩], 23, none⟩, by decide, rfl, rfl, by decide, by decide⟩

/-- Claim C3, amended. On an accepted buffer the returned elementCount is
the product of the returned Length fields wrapped to int32 (two's complement),
and it equals the mathematical product whenever that product lies in
`[-2^31, 2^31)`. -/
theorem C3_elementCount_wrapped_product (src : List UInt8) (r : ArrayStart)
    (h : NewArrayIterator src = .ret r) (he : r.err = none) :
    r.elementCount = int32 (r.dims.map ArrayDimension.Length).prod ∧
      (-2147483648 ≤ (r.dims.map ArrayDimension.Length).prod →
        (r.dims.map ArrayDimension.Length).prod < 2147483648 →
        r.elementCount = (r.dims.map ArrayDimension.Length).prod) := by
  obtain ⟨D, oid, hD, hoid, hpos, hlen⟩ := NewArrayIterator_accepted src r h he
  obtain ⟨d0, rest, hds, hr⟩ := NewArrayIterator_of_header src D oid hD hoid hpos hlen
  obtain ⟨ds, hds2, _, hget⟩ := readDims_of_length src D 12 hlen
  rw [hds] at hds2
  have hdseq : d0 :: rest = ds := congrArg Prod.fst (Run.ret.inj hds2)
  obtain ⟨l, lb, _, _, _, h0⟩ := hget 0 (by omega)
  rw [← hdseq] at h0
  have hd0 : d0.Length = int32 l := by
    simp at h0
    rw [h0]
  rw [hr] at h
  have hreq := Run.ret.inj h
  subst hreq
  have hkey : mulLengths d0.Length rest =
      int32 ((d0 :: rest).map ArrayDimension.Length).prod := by
    rw [hd0, mulLengths_eq]
    simp only [List.map_cons, List.prod_cons]
    rw [hd0, int32_mul_int32]
  exact ⟨hkey, fun h1 h2 => by rw [hkey]; exact int32_of_range _ h1 h2⟩

/-- Witness for C3 (amended) on the scenario buffer. -/
theorem C3_elementCount_wrapped_product_witness :
    (2 : Int) = int32 ([({ Length := 2, LowerBound := 1 } : ArrayDimension)].map
        ArrayDimension.Length).prod ∧
      (-2147483648 ≤ ([({ Length := 2, LowerBound := 1 } : ArrayDimension)].map
          ArrayDimension.Length).prod →
        ([({ Length := 2, LowerBound := 1 } : ArrayDimension)].map
          ArrayDimension.Length).prod < 2147483648 →
        (2 : Int) = ([({ Length := 2, LowerBound := 1 } : ArrayDimension)].map
          ArrayDimension.Length).prod) :=
  C3_elementCount_wrapped_product scenarioBuf
    ⟨[0,0,0,4, 0,0,0,10, 255,255,255,255], 2, [⟨2, 1⟩], 23, none⟩ (by decide) rfl

/-- Claim C4 (code defect). On the 12-byte header with dimension count 0
`NewArrayIterator` does not return: `dims[0]` is evaluated on the empty
dimension list and the call panics with index out of range. -/
theorem C4_zero_dims_panics :
    zeroDimBuf.length = 12 ∧ Uint32 zeroDimBuf = .ret 0 ∧
      NewArrayIterator zeroDimBuf = .panic .indexOutOfRange := by
  decide

/-- Every buffer of at least 12 bytes with dimension count 0 makes
`NewArrayIterator` panic. -/
theorem NewArrayIterator_zero_dims (src : List UInt8) (h12 : 12 ≤ src.length)
    (hD : Uint32 src = .ret 0) : NewArrayIterator src = .panic .indexOutOfRange := by
  rw [← readUint32_zero] at hD
  obtain ⟨c, hc, _⟩ := readUint32_of_length src 4 (by omega)
  obtain ⟨oid, hoid, _⟩ := readUint32_of_length src 8 (by omega)
  have h12' : ¬ src.length < 12 := by omega
  simp [NewArrayIterator, h12', hD, hc, hoid, Run.bind, readDims]

/-! ## NextElem -/

theorem Run.bind_ret {α β : Type} (a : α) (f : α → Run β) : (Run.ret a).bind f = f a := rfl

/-- The successful step of `NextElem` on a frame with a non-negative length
that fits the remaining bytes. -/
theorem NextElem_of_fit (it : ArrayIterator) (u L : Nat)
    (hu : Uint32 it = .ret u) (hL : int32 u = (L : Int)) (hlen : 4 + L ≤ it.length) :
    NextElem it = .ret ⟨false, some ((it.drop 4).take L), none, it.drop (4 + L)⟩ := by
  have h4 : ¬ it.length < 4 := by omega
  have hc : ¬ ((it.length : Int) < 4 + (L : Int)) := by omega
  have hs : (0 : Int) ≤ 4 ∧ (4 : Int) ≤ 4 + (L : Int) ∧ 4 + (L : Int) ≤ (it.length : Int) := by
    omega
  have hs2 : (0 : Int) ≤ 4 + (L : Int) ∧ 4 + (L : Int) ≤ (it.length : Int) := by omega
  have ht : (4 + (L : Int)).toNat - (4 : Int).toNat = L := by omega
  have ht2 : (4 + (L : Int)).toNat = 4 + L := by omega
  have ht3 : (4 : Int).toNat = 4 := rfl
  unfold NextElem
  rw [if_neg h4, readUint32_zero, hu, Run.bind_ret]
  simp only []
  rw [hL, if_neg hc]
  unfold sliceRange sliceFromInt
  rw [if_pos hs, if_pos hs2, Run.bind_ret, Run.bind_ret, ht, ht2, ht3]

/-- Claim C5. When the leading int32 length is `L ≥ 0` and `4+L` bytes
remain, `NextElem` returns nil error, isNull = false, the `L` bytes at
offsets `4..4+L-1` as elemBytes, and leaves the iterator without its first
`4+L` bytes. -/
theorem C5_NextElem_payload (it : ArrayIterator) (u L : Nat)
    (hu : Uint32 it = .ret u) (hL : int32 u = (L : Int)) (hlen : 4 + L ≤ it.length) :
    NextElem it = .ret ⟨false, some ((it.drop 4).take L), none, it.drop (4 + L)⟩ ∧
      ((it.drop 4).take L).length = L ∧
      (∀ k, k < L → ((it.drop 4).take L)[k]? = it[4 + k]?) ∧
      it = it.take (4 + L) ++ it.drop (4 + L) := by
  refine ⟨NextElem_of_fit it u L hu hL hlen, by simp; omega, ?_, by simp⟩
  · intro k hk
    rw [List.getElem?_take_of_lt hk, List.getElem?_drop]

/-- Witness for C5: the frame [4, 00 00 00 0A] followed by a further frame. -/
theorem C5_NextElem_payload_witness :
    NextElem [0,0,0,4, 0,0,0,10, 255,255,255,255] =
        .ret ⟨false, some ((([0,0,0,4, 0,0,0,10, 255,255,255,255] : List UInt8).drop 4).take 4),
          none, ([0,0,0,4, 0,0,0,10, 255,255,255,255] : List UInt8).drop (4 + 4)⟩ ∧
      ((([0,0,0,4, 0,0,0,10, 255,255,255,255] : List UInt8).drop 4).take 4).length = 4 ∧
      (∀ k, k < 4 → ((([0,0,0,4, 0,0,0,10, 255,255,255,255] : List UInt8).drop 4).take 4)[k]? =
        ([0,0,0,4, 0,0,0,10, 255,255,255,255] : List UInt8)[4 + k]?) ∧
      ([0,0,0,4, 0,0,0,10, 255,255,255,255] : List UInt8) =
        ([0,0,0,4, 0,0,0,10, 255,255,255,255] : List UInt8).take (4 + 4) ++
          ([0,0,0,4, 0,0,0,10, 255,255,255,255] : List UInt8).drop (4 + 4) :=
  C5_NextElem_payload [0,0,0,4, 0,0,0,10, 255,255,255,255] 4 4 (by decide) (by decide)
    (by decide)

/-- Claim C6 (code defect). On the 4-byte iterator holding the NULL frame
(length -1) `NextElem` does not return isNull = true: the slice expression
`(*it)[4:3]` panics. -/
theorem C6_NextElem_null_frame_panics :
    Uint32 [255,255,255,255] = .ret 4294967295 ∧ int32 4294967295 = -1 ∧
      NextElem [255,255,255,255] = .panic .sliceBounds := by
  decide

/-- Every iterator of at least 4 bytes whose leading int32 length is negative
makes `NextElem` panic. -/
theorem NextElem_negative_length (it : ArrayIterator) (u : Nat)
    (hu : Uint32 it = .ret u) (hneg : int32 u < 0) (h4 : 4 ≤ it.length) :
    NextElem it = .panic .sliceBounds := by
  have h4' : ¬ it.length < 4 := by omega
  have hc : ¬ ((it.length : Int) < 4 + int32 u) := by omega
  have hs : ¬ ((0 : Int) ≤ 4 ∧ (4 : Int) ≤ 4 + int32 u ∧ 4 + int32 u ≤ (it.length : Int)) := by
    omega
  unfold NextElem
  rw [if_neg h4', readUint32_zero, hu, Run.bind_ret]
  simp only []
  rw [if_neg hc]
  unfold sliceRange
  rw [if_neg hs]
  rfl

/-- Claim C7 (code defect). On the 4-byte iterator whose leading int32
length is -2 (neither -1 nor non-negative) `NextElem` returns no error: the
slice expression `(*it)[4:2]` panics. -/
theorem C7_NextElem_negative_length_panics :
    Uint32 [255,255,255,254] = .ret 4294967294 ∧ int32 4294967294 = -2 ∧
      NextElem [255,255,255,254] = .panic .sliceBounds := by
  decide

/-- The error cases `NextElem` does report: fewer than 4 bytes, or a
non-negative length with fewer than `4+L` bytes remaining; and a returned
error arises only in these cases. -/
theorem NextElem_error_iff (it : ArrayIterator) (s : ElemStep) (h : NextElem it = .ret s) :
    s.err ≠ none ↔
      (it.length < 4 ∨ ∃ u, Uint32 it = .ret u ∧ 0 ≤ int32 u ∧
        (it.length : Int) < 4 + int32 u) := by
  by_cases h4 : it.length < 4
  · unfold NextElem at h
    rw [if_pos h4] at h
    have hs := Run.ret.inj h
    subst hs
    simp [h4]
  · obtain ⟨u, hu, _⟩ := Uint32_of_length it (by omega)
    by_cases hneg : int32 u < 0
    · rw [NextElem_negative_length it u hu hneg (by omega)] at h
      cases h
    · by_cases hc : (it.length : Int) < 4 + int32 u
      · unfold NextElem at h
        rw [if_neg h4, readUint32_zero, hu, Run.bind_ret] at h
        simp only [] at h
        rw [if_pos hc] at h
        have hs := Run.ret.inj h
        subst hs
        simp only [ne_eq, reduceCtorEq, not_false_eq_true, true_iff]
        exact Or.inr ⟨u, hu, by omega, hc⟩
      · obtain ⟨L, hL⟩ := Int.eq_ofNat_of_zero_le (show 0 ≤ int32 u by omega)
        have h5 := (NextElem_of_fit it u L hu hL (by omega))
        rw [h5] at h
        have hs := Run.ret.inj h
        subst hs
        simp only [ne_eq, not_true_eq_false, false_iff, not_or, not_exists, not_and]
        refine ⟨h4, fun v hv _ => ?_⟩
        rw [hu] at hv
        cases hv
        exact hc

/-- Claim C8 (code defect). The buffer `nullOnlyBuf` is well formed: an
accepted header with elementCount 1 followed by exactly one frame, a NULL
frame. The first of the elementCount calls of `NextElem` panics. -/
theorem C8_drain_null_frame_panics :
    NewArrayIterator nullOnlyBuf = .ret ⟨[255,255,255,255], 1, [⟨1, 1⟩], 23, none⟩ ∧
      NextElem [255,255,255,255] = .panic .sliceBounds := by
  decide

/-- Claim C9 (code defect). On the 32-byte scenario buffer the header parses
to elementCount 2, dims [{2,1}], OID 23 with nil error and the first
`NextElem` yields (isNull = false, 00 00 00 0A), but the second `NextElem`, on
the NULL frame, panics and yields nothing. -/
theorem C9_scenario_second_NextElem_panics :
    scenarioBuf.length = 32 ∧
      NewArrayIterator scenarioBuf =
        .ret ⟨[0,0,0,4, 0,0,0,10, 255,255,255,255], 2, [⟨2, 1⟩], 23, none⟩ ∧
      NextElem [0,0,0,4, 0,0,0,10, 255,255,255,255] =
        .ret ⟨false, some [0,0,0,10], none, [255,255,255,255]⟩ ∧
      NextElem [255,255,255,255] = .panic .sliceBounds := by
  decide

/-- Claim C10 (code defect). The buffer `rowThenNullBuf` is accepted with
elementCount 2; its frame 0 holds the row (a = 7, b = NULL), which both
element decoders decode without error, and its frame 1 is a NULL frame.
Neither array decoder returns an error naming index 1: element 0 is decoded
and the `NextElem` call of iteration 1 panics. -/
theorem C10_null_element_decode_panics :
    rowThenNullBuf =
        [0,0,0,1, 0,0,0,1, 0,0,64,0, 0,0,0,2, 0,0,0,1] ++
          elemFrame (encodeRecord [] [(23, some [0,0,0,7]), (25, none)]) ++
          [255,255,255,255] ∧
      NewArrayIterator rowThenNullBuf =
        .ret ⟨elemFrame rowBytes ++ [255,255,255,255], 2, [⟨2, 1⟩], 16384, none⟩ ∧
      MyType.DecodeBinary ⟨0, none⟩ (some rowBytes) = .ret (⟨7, none⟩, none) ∧
      MyCompositeRawArray.DecodeBinary [] (some rowThenNullBuf) = .panic .sliceBounds ∧
      MyTypeArrayDecoder [] (some rowThenNullBuf) = .panic .sliceBounds ∧
      (ArrayT MyTypeArrayDecoder.alloc MyTypeArrayDecoder.decode [] (some rowThenNullBuf)).log =
        [⟨.newIterator, .returned none⟩, ⟨.alloc false 2 [⟨2, 1⟩] 16384, .returned none⟩,
          ⟨.nextElem 0, .returned none⟩, ⟨.decode false 0 (some rowBytes), .returned none⟩,
          ⟨.nextElem 1, .aborted⟩] ∧
      (ArrayT MyCompositeRawArray.alloc MyCompositeRawArray.decode []
          (some rowThenNullBuf)).log =
        [⟨.newIterator, .returned none⟩, ⟨.alloc false 2 [⟨2, 1⟩] 16384, .returned none⟩,
          ⟨.nextElem 0, .returned none⟩, ⟨.decode false 0 (some rowBytes), .returned none⟩,
          ⟨.nextElem 1, .aborted⟩] := by
  decide

/-- The decoders on the scenario buffer, whose frame 0 is the int4 payload
00 00 00 0A and not a row: `MyCompositeRawArray.DecodeBinary`, whose element
decoder accepts every payload, panics in `NextElem` on the NULL frame, while
the decoder built by `MyTypeArrayDecoder` stops before, at the error of
`ScanRowValue` on frame 0. -/
theorem decoders_on_scenarioBuf :
    MyCompositeRawArray.DecodeBinary [] (some scenarioBuf) = .panic .sliceBounds ∧
      MyTypeArrayDecoder [] (some scenarioBuf) =
        .ret ([⟨0, none⟩, ⟨0, none⟩], some (.typeMismatch 2 10)) := by
  decide

/-! ## Observed reads of the header parser -/

theorem Traced.bind_out {ε α β : Type} (x : Traced ε α) (f : α → Traced ε β) :
    (x.bind f).out = x.out.bind fun a => (f a).out := by
  unfold Traced.bind Run.bind
  cases x.out <;> rfl

theorem Traced.mem_bind_log {ε α β : Type} (x : Traced ε α) (f : α → Traced ε β) (e : ε)
    (h : e ∈ (x.bind f).log) : e ∈ x.log ∨ ∃ a, x.out = .ret a ∧ e ∈ (f a).log := by
  unfold Traced.bind at h
  cases hx : x.out with
  | ret a =>
    rw [hx] at h
    simp only [List.mem_append] at h
    exact h.elim Or.inl fun h2 => Or.inr ⟨a, rfl, h2⟩
  | panic p => rw [hx] at h; exact Or.inl h
  | outOfFuel => rw [hx] at h; exact Or.inl h

theorem readDimsT_out (src : List UInt8) (n : Nat) :
    ∀ rp, (readDimsT src n rp).out = readDims src n rp := by
  induction n with
  | zero => intro rp; rfl
  | succ n ih =>
    intro rp
    simp only [readDimsT, readDims, Traced.bind_out, ih]
    rfl

/-- Erasing the observations of `NewArrayIteratorT` gives `NewArrayIterator`. -/
theorem NewArrayIteratorT_out (src : List UInt8) :
    (NewArrayIteratorT src).out = NewArrayIterator src := by
  unfold NewArrayIteratorT NewArrayIterator
  split
  · rfl
  · simp only [Traced.bind_out, readUint32T, Traced.emit]
    congr 1; funext numDims
    congr 1; funext _
    congr 1; funext oid
    split
    · rfl
    · rw [Traced.bind_out, readDimsT_out]
      congr 1; funext r
      split
      · rfl
      · rw [Traced.bind_out]; rfl

theorem readDimsT_log (src : List UInt8) (n : Nat) :
    ∀ rp x, x ∈ (readDimsT src n rp).log → rp ≤ x ∧ x + 4 ≤ rp + 8 * n := by
  induction n with
  | zero => intro rp x h; simp [readDimsT, Traced.quiet] at h
  | succ n ih =>
    intro rp x h
    simp only [readDimsT] at h
    rcases Traced.mem_bind_log _ _ _ h with h1 | ⟨l, _, h1⟩
    · simp [readUint32T, Traced.emit] at h1; omega
    · rcases Traced.mem_bind_log _ _ _ h1 with h2 | ⟨lb, _, h2⟩
      · simp [readUint32T, Traced.emit] at h2; omega
      · rcases Traced.mem_bind_log _ _ _ h2 with h3 | ⟨r, _, h3⟩
        · have := ih (rp + 8) x h3
          omega
        · simp [Traced.quiet] at h3

/-- The words `NewArrayIterator` reads on a buffer of at least 12 bytes: the
three header words and, when the buffer holds all `D` dimensions, the words of
the dimension loop. -/
theorem NewArrayIteratorT_log (src : List UInt8) (D : Nat) (h12 : ¬ src.length < 12)
    (hD : readUint32 src 0 = .ret D) :
    ∀ x ∈ (NewArrayIteratorT src).log,
      x ∈ [0, 4, 8] ∨ (¬ src.length < 12 + D * 8 ∧ x ∈ (readDimsT src D 12).log) := by
  intro x hx
  unfold NewArrayIteratorT at hx
  rw [if_neg h12] at hx
  rcases Traced.mem_bind_log _ _ _ hx with h1 | ⟨n, hn, h1⟩
  · simp [readUint32T, Traced.emit] at h1; simp [h1]
  · have hnD : n = D := by
      simp only [readUint32T, Traced.emit] at hn
      rw [hD] at hn
      exact (Run.ret.inj hn).symm
    subst hnD
    rcases Traced.mem_bind_log _ _ _ h1 with h2 | ⟨c, _, h2⟩
    · simp [readUint32T, Traced.emit] at h2; simp [h2]
    · rcases Traced.mem_bind_log _ _ _ h2 with h3 | ⟨oid, _, h3⟩
      · simp [readUint32T, Traced.emit] at h3; simp [h3]
      · by_cases hlen : src.length < 12 + n * 8
        · rw [if_pos hlen] at h3
          simp [Traced.quiet] at h3
        · rw [if_neg hlen] at h3
          rcases Traced.mem_bind_log _ _ _ h3 with h4 | ⟨r, _, h4⟩
          · exact Or.inr ⟨hlen, h4⟩
          · exfalso
            split at h4
            · simp [Traced.quiet] at h4
            · rcases Traced.mem_bind_log _ _ _ h4 with h5 | ⟨it, _, h5⟩
              · simp [Traced.quiet] at h5
              · simp [Traced.quiet] at h5

/-- Claim C12. For every buffer, every word `NewArrayIterator` reads starts at
an offset `rp` with `rp + 4 ≤ len(src)`; a word is read only when
`len(src) ≥ 12`; a dimension word (offset 12 or above) is read only when
`len(src) ≥ 12 + 8*D` and lies below `12 + 8*D`; and when an error is
returned no dimension word has been read. The observed run has the results of
`NewArrayIterator`. -/
theorem C12_NewArrayIterator_reads_in_bounds (src : List UInt8) :
    (NewArrayIteratorT src).out = NewArrayIterator src ∧
    (∀ rp ∈ (NewArrayIteratorT src).log, rp + 4 ≤ src.length ∧ 12 ≤ src.length ∧
      (12 ≤ rp → ∃ D, Uint32 src = .ret D ∧ 12 + 8 * D ≤ src.length ∧
        rp + 4 ≤ 12 + 8 * D)) ∧
    (∀ r, NewArrayIterator src = .ret r → r.err ≠ none →
      ∀ rp ∈ (NewArrayIteratorT src).log, rp < 12) := by
  refine ⟨NewArrayIteratorT_out src, ?_, ?_⟩
  · intro rp hrp
    by_cases h12 : src.length < 12
    · simp [NewArrayIteratorT, h12, Traced.quiet] at hrp
    · obtain ⟨D, hD, _⟩ := readUint32_of_length src 0 (by omega)
      rcases NewArrayIteratorT_log src D h12 hD rp hrp with h | ⟨hlen, h⟩
      · simp at h
        refine ⟨by omega, by omega, fun h => by omega⟩
      · have hb := readDimsT_log src D 12 rp h
        refine ⟨by omega, by omega, fun _ => ⟨D, ?_, by omega, by omega⟩⟩
        rw [← readUint32_zero]; exact hD
  · intro r hr he rp hrp
    by_cases h12 : src.length < 12
    · simp [NewArrayIteratorT, h12, Traced.quiet] at hrp
    · obtain ⟨D, hD, _⟩ := readUint32_of_length src 0 (by omega)
      rcases NewArrayIteratorT_log src D h12 hD rp hrp with h | ⟨hlen, h⟩
      · simp at h; omega
      · exfalso
        obtain ⟨oid, hoid, _⟩ := readUint32_of_length src 8 (by omega)
        by_cases hpos : 1 ≤ D
        · obtain ⟨d0, rest, _, hr2⟩ :=
            NewArrayIterator_of_header src D oid hD hoid hpos (by omega)
          rw [hr2] at hr
          have := Run.ret.inj hr
          subst this
          exact he rfl
        · have hD0 : D = 0 := by omega
          subst hD0
          simp [readDimsT, Traced.quiet] at h

/-- Witness for C12 on the scenario buffer. -/
theorem C12_NewArrayIterator_reads_in_bounds_witness :
    (NewArrayIteratorT scenarioBuf).out = NewArrayIterator scenarioBuf ∧
    (∀ rp ∈ (NewArrayIteratorT scenarioBuf).log, rp + 4 ≤ scenarioBuf.length ∧
      12 ≤ scenarioBuf.length ∧
      (12 ≤ rp → ∃ D, Uint32 scenarioBuf = .ret D ∧ 12 + 8 * D ≤ scenarioBuf.length ∧
        rp + 4 ≤ 12 + 8 * D)) ∧
    (∀ r, NewArrayIterator scenarioBuf = .ret r → r.err ≠ none →
      ∀ rp ∈ (NewArrayIteratorT scenarioBuf).log, rp < 12) :=
  C12_NewArrayIterator_reads_in_bounds scenarioBuf

/-- The reads observed on the scenario buffer and on a buffer that is too
short for its declared dimensions. -/
theorem NewArrayIteratorT_examples :
    (NewArrayIteratorT scenarioBuf).log = [0, 4, 8, 12, 16] ∧
    (NewArrayIteratorT [0,0,0,2, 0,0,0,0, 0,0,0,23, 0,0,0,1, 0,0,0,1]).log = [0, 4, 8] ∧
    (NewArrayIteratorT [0,0,0,2, 0,0,0,0]).log = [] := by
  decide

/-! ## Range of the dimension lengths -/

/-- The element count of an accepted buffer is the int32 wrap of the product
of the returned lengths, and every returned length is an int32 value. -/
theorem NewArrayIterator_lengths (src : List UInt8) (r : ArrayStart)
    (h : NewArrayIterator src = .ret r) (he : r.err = none) :
    r.elementCount = int32 (r.dims.map ArrayDimension.Length).prod ∧
      ∀ d ∈ r.dims, ∃ l : Nat, d.Length = int32 l := by
  obtain ⟨D, oid, hD, hoid, hpos, hlen⟩ := NewArrayIterator_accepted src r h he
  obtain ⟨d0, rest, hds, hr⟩ := NewArrayIterator_of_header src D oid hD hoid hpos hlen
  obtain ⟨ds, hds2, hdl, hget⟩ := readDims_of_length src D 12 hlen
  rw [hds] at hds2
  have hdseq : d0 :: rest = ds := congrArg Prod.fst (Run.ret.inj hds2)
  rw [hr] at h
  have hreq := Run.ret.inj h
  subst hreq
  have hall : ∀ d ∈ d0 :: rest, ∃ l : Nat, d.Length = int32 l := by
    intro d hd
    rw [hdseq] at hd
    obtain ⟨i, hi, hdi⟩ := List.getElem_of_mem hd
    obtain ⟨l, lb, _, _, _, h4⟩ := hget i (by omega)
    rw [List.getElem?_eq_getElem hi, hdi] at h4
    exact ⟨l, by rw [Option.some.inj h4]⟩
  refine ⟨?_, hall⟩
  obtain ⟨l, hl⟩ := hall d0 (List.mem_cons_self _ _)
  show mulLengths d0.Length rest = int32 ((d0 :: rest).map ArrayDimension.Length).prod
  rw [hl, mulLengths_eq]
  simp only [List.map_cons, List.prod_cons]
  rw [hl, int32_mul_int32]

/-- Counterexample to claim C13 as stated: the header with the single
dimension length FF FF FF FF is accepted, and returns a dimension of Length -1
and elementCount -1. -/
theorem C13_negative_length_counterexample :
    NewArrayIterator negLenBuf = .ret ⟨[], -1, [⟨-1, 1⟩], 23, none⟩ ∧
      ¬ (∀ d ∈ [({ Length := -1, LowerBound := 1 } : ArrayDimension)], 0 ≤ d.Length) ∧
      ¬ ((0 : Int) ≤ -1) := by
  decide

/-- Claim C13, amended. On an accepted buffer every returned ArrayDimension
has a Length in the int32 range `[-2^31, 2^31)`, with no sign check, and so
has the returned elementCount; when all lengths are non-negative and their
product is below `2^31`, elementCount is non-negative. -/
theorem C13_lengths_int32_range (src : List UInt8) (r : ArrayStart)
    (h : NewArrayIterator src = .ret r) (he : r.err = none) :
    (∀ d ∈ r.dims, -2147483648 ≤ d.Length ∧ d.Length < 2147483648) ∧
      (-2147483648 ≤ r.elementCount ∧ r.elementCount < 2147483648) ∧
      ((∀ d ∈ r.dims, 0 ≤ d.Length) →
        (r.dims.map ArrayDimension.Length).prod < 2147483648 → 0 ≤ r.elementCount) := by
  obtain ⟨hec, hall⟩ := NewArrayIterator_lengths src r h he
  refine ⟨?_, ?_, ?_⟩
  · intro d hd
    obtain ⟨l, hl⟩ := hall d hd
    rw [hl]
    exact int32_range _
  · rw [hec]
    exact int32_range _
  · intro hnn hlt
    have hprod : 0 ≤ (r.dims.map ArrayDimension.Length).prod := by
      apply List.prod_nonneg
      intro a ha
      obtain ⟨d, hd, rfl⟩ := List.mem_map.mp ha
      exact hnn d hd
    rw [hec, int32_of_range _ (by omega) hlt]
    exact hprod

/-- Witness for C13 (amended) on the scenario buffer. -/
theorem C13_lengths_int32_range_witness :
    (∀ d ∈ [({ Length := 2, LowerBound := 1 } : ArrayDimension)],
        -2147483648 ≤ d.Length ∧ d.Length < 2147483648) ∧
      (-2147483648 ≤ (2 : Int) ∧ (2 : Int) < 2147483648) ∧
      ((∀ d ∈ [({ Length := 2, LowerBound := 1 } : ArrayDimension)], 0 ≤ d.Length) →
        ([({ Length := 2, LowerBound := 1 } : ArrayDimension)].map
          ArrayDimension.Length).prod < 2147483648 → 0 ≤ (2 : Int)) :=
  C13_lengths_int32_range scenarioBuf
    ⟨[0,0,0,4, 0,0,0,10, 255,255,255,255], 2, [⟨2, 1⟩], 23, none⟩ (by decide) rfl

/-! ## NextElem on failure -/

/-- Claim C16. When `NextElem` returns a non-nil error, the iterator is left
as it was, isNull is false and elemBytes is nil. -/
theorem C16_NextElem_atomic_on_failure (it : ArrayIterator) (s : ElemStep)
    (h : NextElem it = .ret s) (he : s.err ≠ none) :
    s.it = it ∧ s.isNull = false ∧ s.elemBytes = none := by
  by_cases h4 : it.length < 4
  · unfold NextElem at h
    rw [if_pos h4] at h
    have hs := Run.ret.inj h
    subst hs
    exact ⟨rfl, rfl, rfl⟩
  · obtain ⟨u, hu, _⟩ := Uint32_of_length it (by omega)
    by_cases hneg : int32 u < 0
    · rw [NextElem_negative_length it u hu hneg (by omega)] at h
      cases h
    · by_cases hc : (it.length : Int) < 4 + int32 u
      · unfold NextElem at h
        rw [if_neg h4, readUint32_zero, hu, Run.bind_ret] at h
        simp only [] at h
        rw [if_pos hc] at h
        have hs := Run.ret.inj h
        subst hs
        exact ⟨rfl, rfl, rfl⟩
      · obtain ⟨L, hL⟩ := Int.eq_ofNat_of_zero_le (show 0 ≤ int32 u by omega)
        rw [NextElem_of_fit it u L hu hL (by omega)] at h
        have hs := Run.ret.inj h
        subst hs
        exact absurd rfl he

/-- Witness for C16: three remaining bytes and a frame that declares more
bytes than remain. -/
theorem C16_NextElem_atomic_on_failure_witness :
    (([0,0,0,9, 1,2] : ArrayIterator) = [0,0,0,9, 1,2] ∧ false = false ∧
      (none : Option (List UInt8)) = none) :=
  C16_NextElem_atomic_on_failure [0,0,0,9, 1,2]
    ⟨false, none, some .elementTooShort, [0,0,0,9, 1,2]⟩ (by decide) (by decide)

/-! ## Observed runs of the array decoders -/

theorem NextElem_ne_outOfFuel (it : ArrayIterator) : NextElem it ≠ .outOfFuel := by
  by_cases h4 : it.length < 4
  · unfold NextElem
    rw [if_pos h4]
    exact fun h => Run.noConfusion h
  · obtain ⟨u, hu, _⟩ := Uint32_of_length it (by omega)
    by_cases hneg : int32 u < 0
    · rw [NextElem_negative_length it u hu hneg (by omega)]
      exact fun h => Run.noConfusion h
    · by_cases hc : (it.length : Int) < 4 + int32 u
      · unfold NextElem
        rw [if_neg h4, readUint32_zero, hu, Run.bind_ret]
        simp only []
        rw [if_pos hc]
        exact fun h => Run.noConfusion h
      · obtain ⟨L, hL⟩ := Int.eq_ofNat_of_zero_le (show 0 ≤ int32 u by omega)
        rw [NextElem_of_fit it u L hu hL (by omega)]
        exact fun h => Run.noConfusion h

/-- A successful `NextElem` call removes at least 4 bytes from the iterator. -/
theorem NextElem_shortens (it : ArrayIterator) (s : ElemStep)
    (h : NextElem it = .ret s) (he : s.err = none) : s.it.length + 4 ≤ it.length := by
  by_cases h4 : it.length < 4
  · unfold NextElem at h
    rw [if_pos h4] at h
    have hs := Run.ret.inj h
    subst hs
    cases he
  · obtain ⟨u, hu, _⟩ := Uint32_of_length it (by omega)
    by_cases hneg : int32 u < 0
    · rw [NextElem_negative_length it u hu hneg (by omega)] at h
      cases h
    · by_cases hc : (it.length : Int) < 4 + int32 u
      · unfold NextElem at h
        rw [if_neg h4, readUint32_zero, hu, Run.bind_ret] at h
        simp only [] at h
        rw [if_pos hc] at h
        have hs := Run.ret.inj h
        subst hs
        cases he
      · obtain ⟨L, hL⟩ := Int.eq_ofNat_of_zero_le (show 0 ≤ int32 u by omega)
        rw [NextElem_of_fit it u L hu hL (by omega)] at h
        have hs := Run.ret.inj h
        subst hs
        simp only [List.length_drop]
        omega

/-- Case analysis of one observed run of the loop: a property holds of every
run of `Array.drainT` if it holds of a run that finds the iterator empty, of
one that is out of fuel, of the runs that stop in the first iteration, and is
kept by an iteration that succeeds. -/
theorem Array.drainT_induct {σ : Type}
    (decode : Bool → Nat → Option (List UInt8) → σ → Run (σ × Option Error))
    (P : Nat → Nat → ArrayIterator → σ → Traced Event (σ × Option Error) → Prop)
    (empty : ∀ fuel i it st, ¬ 0 < it.length → P fuel i it st ⟨[], .ret (st, none)⟩)
    (noFuel : ∀ i it st, 0 < it.length → P 0 i it st ⟨[], .outOfFuel⟩)
    (nextPanic : ∀ fuel i it st p, 0 < it.length → NextElem it = .panic p →
      P (fuel + 1) i it st ⟨[⟨.nextElem i, .aborted⟩], .panic p⟩)
    (nextErr : ∀ fuel i it st s e, 0 < it.length → NextElem it = .ret s → s.err = some e →
      P (fuel + 1) i it st ⟨[⟨.nextElem i, .returned (some e)⟩], .ret (st, some e)⟩)
    (decPanic : ∀ fuel i it st s p, 0 < it.length → NextElem it = .ret s → s.err = none →
      decode s.isNull i s.elemBytes st = .panic p →
      P (fuel + 1) i it st
        ⟨[⟨.nextElem i, .returned none⟩, ⟨.decode s.isNull i s.elemBytes, .aborted⟩],
          .panic p⟩)
    (decStuck : ∀ fuel i it st s, 0 < it.length → NextElem it = .ret s → s.err = none →
      decode s.isNull i s.elemBytes st = .outOfFuel →
      P (fuel + 1) i it st
        ⟨[⟨.nextElem i, .returned none⟩, ⟨.decode s.isNull i s.elemBytes, .aborted⟩],
          .outOfFuel⟩)
    (decErr : ∀ fuel i it st s r e, 0 < it.length → NextElem it = .ret s → s.err = none →
      decode s.isNull i s.elemBytes st = .ret r → r.2 = some e →
      P (fuel + 1) i it st
        ⟨[⟨.nextElem i, .returned none⟩,
            ⟨.decode s.isNull i s.elemBytes, .returned (some e)⟩],
          .ret (r.1, some e)⟩)
    (step : ∀ fuel i it st s r, 0 < it.length → NextElem it = .ret s → s.err = none →
      decode s.isNull i s.elemBytes st = .ret r → r.2 = none →
      P fuel (i + 1) s.it r.1 (Array.drainT decode fuel (i + 1) s.it r.1) →
      P (fuel + 1) i it st
        ⟨⟨.nextElem i, .returned none⟩ :: ⟨.decode s.isNull i s.elemBytes, .returned none⟩ ::
            (Array.drainT decode fuel (i + 1) s.it r.1).log,
          (Array.drainT decode fuel (i + 1) s.it r.1).out⟩) :
    ∀ fuel i it st, P fuel i it st (Array.drainT decode fuel i it st) := by
  intro fuel
  induction fuel with
  | zero =>
    intro i it st
    unfold Array.drainT
    by_cases hpos : 0 < it.length
    · rw [if_pos hpos]; exact noFuel i it st hpos
    · rw [if_neg hpos]; exact empty 0 i it st hpos
  | succ fuel ih =>
    intro i it st
    unfold Array.drainT
    by_cases hpos : 0 < it.length
    · rw [if_pos hpos]
      cases hN : NextElem it with
      | outOfFuel => exact absurd hN (NextElem_ne_outOfFuel it)
      | panic p =>
        simp only [Traced.bind, Traced.emit, endedBy]
        exact nextPanic fuel i it st p hpos hN
      | ret s =>
        cases hs : s.err with
        | some e =>
          simp only [Traced.bind, Traced.emit, endedBy, hs, Traced.quiet, List.append_nil]
          exact nextErr fuel i it st s e hpos hN hs
        | none =>
          cases hd : decode s.isNull i s.elemBytes st with
          | outOfFuel =>
            simp only [Traced.bind, Traced.emit, endedBy, hs, hd, List.singleton_append]
            exact decStuck fuel i it st s hpos hN hs hd
          | panic p =>
            simp only [Traced.bind, Traced.emit, endedBy, hs, hd, List.singleton_append]
            exact decPanic fuel i it st s p hpos hN hs hd
          | ret r =>
            cases hr : r.2 with
            | some e =>
              simp only [Traced.bind, Traced.emit, endedBy, hs, hd, hr, Traced.quiet,
                List.singleton_append, List.append_nil]
              exact decErr fuel i it st s r e hpos hN hs hd hr
            | none =>
              simp only [Traced.bind, Traced.emit, endedBy, hs, hd, hr, List.singleton_append]
              exact step fuel i it st s r hpos hN hs hd hr (ih (i + 1) s.it r.1)
    · rw [if_neg hpos]; exact empty (fuel + 1) i it st hpos

theorem Array.drain_of_empty {σ : Type}
    (decode : Bool → Nat → Option (List UInt8) → σ → Run (σ × Option Error))
    (fuel i : Nat) (it : ArrayIterator) (st : σ) (h : ¬ 0 < it.length) :
    Array.drain decode fuel i it st = .ret (st, none) := by
  unfold Array.drain
  rw [if_neg h]

theorem Array.drain_succ {σ : Type}
    (decode : Bool → Nat → Option (List UInt8) → σ → Run (σ × Option Error))
    (fuel i : Nat) (it : ArrayIterator) (st : σ) (h : 0 < it.length) :
    Array.drain decode (fuel + 1) i it st =
      (NextElem it).bind fun s =>
        match s.err with
        | some e => .ret (st, some e)
        | none =>
          (decode s.isNull i s.elemBytes st).bind fun r =>
          match r.2 with
          | some e => .ret (r.1, some e)
          | none => Array.drain decode fuel (i + 1) s.it r.1 := by
  rw [Array.drain]
  rw [if_pos h]

/-- Erasing the observations of `Array.drainT` gives `Array.drain`. -/
theorem Array.drainT_out {σ : Type}
    (decode : Bool → Nat → Option (List UInt8) → σ → Run (σ × Option Error)) :
    ∀ fuel i it st,
      (Array.drainT decode fuel i it st).out = Array.drain decode fuel i it st := by
  apply Array.drainT_induct decode
    (fun fuel i it st t => t.out = Array.drain decode fuel i it st)
  · intro fuel i it st h
    rw [Array.drain_of_empty decode fuel i it st h]
  · intro i it st h
    unfold Array.drain
    rw [if_pos h]
  · intro fuel i it st p h hN
    rw [Array.drain_succ decode fuel i it st h, hN]
    rfl
  · intro fuel i it st s e h hN hs
    rw [Array.drain_succ decode fuel i it st h, hN, Run.bind_ret]
    simp only [hs]
  · intro fuel i it st s p h hN hs hd
    rw [Array.drain_succ decode fuel i it st h, hN, Run.bind_ret]
    simp only [hs, hd]
    rfl
  · intro fuel i it st s h hN hs hd
    rw [Array.drain_succ decode fuel i it st h, hN, Run.bind_ret]
    simp only [hs, hd]
    rfl
  · intro fuel i it st s r e h hN hs hd hr
    rw [Array.drain_succ decode fuel i it st h, hN, Run.bind_ret]
    simp only [hs, hd, Run.bind_ret, hr]
  · intro fuel i it st s r h hN hs hd hr ih
    rw [Array.drain_succ decode fuel i it st h, hN, Run.bind_ret]
    simp only [hs, hd, Run.bind_ret, hr]
    exact ih

/-- The loop of `(*MyCompositeRawArray).DecodeBinary` is the loop of `Array`
run with `MyCompositeRawArray.decode`. -/
theorem MyCompositeRawArray.drain_eq_Array (fuel : Nat) :
    ∀ i it dst, MyCompositeRawArray.drain fuel i it dst =
      Array.drain MyCompositeRawArray.decode fuel i it dst := by
  induction fuel with
  | zero =>
    intro i it dst
    unfold MyCompositeRawArray.drain Array.drain
    rfl
  | succ fuel ih =>
    intro i it dst
    unfold MyCompositeRawArray.drain Array.drain
    by_cases hpos : 0 < it.length
    · rw [if_pos hpos, if_pos hpos]
      cases hN : NextElem it with
      | outOfFuel => rfl
      | panic p => rfl
      | ret s =>
        simp only [Run.bind_ret]
        cases hs : s.err with
        | some e => rfl
        | none =>
          simp only [MyCompositeRawArray.decode]
          by_cases hnull : s.isNull = true
          · simp only [hnull, if_true, Run.bind_ret]
          · simp only [hnull, if_false]
            cases hx : dst[i]? with
            | none => rfl
            | some x =>
              simp only [Run.bind_ret, MyCompositeRaw.DecodeBinary]
              exact ih (i + 1) s.it (dst.set i x)
    · rw [if_neg hpos, if_neg hpos]

/-- The decoder `(*MyCompositeRawArray).DecodeBinary` is `Array` run with the
callbacks `MyCompositeRawArray.alloc` and `MyCompositeRawArray.decode`. -/
theorem MyCompositeRawArray.DecodeBinary_eq_Array (dst : List MyCompositeRaw)
    (src : Option (List UInt8)) :
    MyCompositeRawArray.DecodeBinary dst src =
      Array MyCompositeRawArray.alloc MyCompositeRawArray.decode dst src := by
  cases src with
  | none => rfl
  | some bytes =>
    show (NewArrayIterator bytes).bind _ = (NewArrayIterator bytes).bind _
    congr 1
    funext h
    cases hs : h.err with
    | some e => rfl
    | none =>
      simp only [MyCompositeRawArray.alloc, Run.bind_ret]
      exact MyCompositeRawArray.drain_eq_Array _ _ _ _

/-! ## Order of the calls -/

/-- Positions of the `NextElem` calls and of the element callbacks in a run
of the loop from index `i`: both count up from `i`, the callback has run as
often as `NextElem` or once less, and as often when the run returns nil. -/
theorem Array.drainT_positions {σ : Type}
    (decode : Bool → Nat → Option (List UInt8) → σ → Run (σ × Option Error)) :
    ∀ fuel i it st,
      nextElemPositions (Array.drainT decode fuel i it st).log =
          List.range' i (nextElemPositions (Array.drainT decode fuel i it st).log).length ∧
        decodePositions (Array.drainT decode fuel i it st).log =
          List.range' i (decodePositions (Array.drainT decode fuel i it st).log).length ∧
        (decodePositions (Array.drainT decode fuel i it st).log).length ≤
          (nextElemPositions (Array.drainT decode fuel i it st).log).length ∧
        (∀ st1, (Array.drainT decode fuel i it st).out = .ret (st1, none) →
          (nextElemPositions (Array.drainT decode fuel i it st).log).length =
            (decodePositions (Array.drainT decode fuel i it st).log).length) := by
  apply Array.drainT_induct decode
    (fun _ i _ _ t =>
      nextElemPositions t.log = List.range' i (nextElemPositions t.log).length ∧
        decodePositions t.log = List.range' i (decodePositions t.log).length ∧
        (decodePositions t.log).length ≤ (nextElemPositions t.log).length ∧
        (∀ st1, t.out = .ret (st1, none) →
          (nextElemPositions t.log).length = (decodePositions t.log).length))
  · intro fuel i it st _
    simp [nextElemPositions, decodePositions]
  · intro i it st _
    simp [nextElemPositions, decodePositions]
  · intro fuel i it st p _ _
    simp [nextElemPositions, decodePositions]
  · intro fuel i it st s e _ _ _
    simp [nextElemPositions, decodePositions]
  · intro fuel i it st s p _ _ _ _
    simp [nextElemPositions, decodePositions]
  · intro fuel i it st s _ _ _ _
    simp [nextElemPositions, decodePositions]
  · intro fuel i it st s r e _ _ _ _ _
    simp [nextElemPositions, decodePositions]
  · intro fuel i it st s r _ _ _ _ _ ih
    obtain ⟨h1, h2, h3, h4⟩ := ih
    have e1 : ∀ l : List Event, nextElemPositions
        (⟨.nextElem i, .returned none⟩ :: ⟨.decode s.isNull i s.elemBytes, .returned none⟩ :: l)
        = i :: nextElemPositions l := fun l => by simp [nextElemPositions]
    have e2 : ∀ l : List Event, decodePositions
        (⟨.nextElem i, .returned none⟩ :: ⟨.decode s.isNull i s.elemBytes, .returned none⟩ :: l)
        = i :: decodePositions l := fun l => by simp [decodePositions]
    simp only [e1, e2, List.length_cons, List.range'_succ]
    refine ⟨by rw [← h1], by rw [← h2], by omega, fun st1 h => by rw [h4 st1 h]⟩

/-! ## Abort on the first error -/

theorem mem_dropLast_cons {α : Type} (a x : α) (l : List α) (h : x ∈ (a :: l).dropLast) :
    x = a ∨ x ∈ l.dropLast := by
  cases l with
  | nil => simp at h
  | cons b l => simpa using h

theorem AbortsOnFirstError.quiet_ok {σ : Type} (st : σ) :
    AbortsOnFirstError (⟨[], .ret (st, none)⟩ : Traced Event (σ × Option Error)) := by
  refine ⟨fun ev h => by simp at h, fun ev h => by simp at h, fun st1 e h => ?_⟩
  simp at h

theorem AbortsOnFirstError.quiet_stuck {σ : Type} :
    AbortsOnFirstError (⟨[], .outOfFuel⟩ : Traced Event (σ × Option Error)) := by
  refine ⟨fun ev h => by simp at h, fun ev h => by simp at h, fun st1 e h => ?_⟩
  simp at h

theorem AbortsOnFirstError.last_error {σ : Type} (c : Call) (e : Error) (st : σ) :
    AbortsOnFirstError
      (⟨[⟨c, .returned (some e)⟩], .ret (st, some e)⟩ : Traced Event (σ × Option Error)) := by
  refine ⟨fun ev h e1 h1 => ?_, fun ev h => by simp at h, fun st1 e1 h => ?_⟩
  · simp only [List.mem_singleton] at h
    subst h
    simp only [Ended.returned.injEq, Option.some.injEq] at h1
    subst h1
    exact ⟨st, rfl⟩
  · simp only [Run.ret.injEq, Prod.mk.injEq, Option.some.injEq] at h
    exact ⟨_, List.mem_singleton_self _, by rw [h.2]⟩

theorem AbortsOnFirstError.last_panic {σ : Type} (c : Call) (p : Fault) :
    AbortsOnFirstError (⟨[⟨c, .aborted⟩], .panic p⟩ : Traced Event (σ × Option Error)) := by
  refine ⟨fun ev h e1 h1 => ?_, fun ev h => by simp at h, fun st1 e1 h => by simp at h⟩
  simp only [List.mem_singleton] at h
  subst h
  simp at h1

theorem AbortsOnFirstError.last_stuck {σ : Type} (c : Call) :
    AbortsOnFirstError (⟨[⟨c, .aborted⟩], .outOfFuel⟩ : Traced Event (σ × Option Error)) := by
  refine ⟨fun ev h e1 h1 => ?_, fun ev h => by simp at h, fun st1 e1 h => by simp at h⟩
  simp only [List.mem_singleton] at h
  subst h
  simp at h1

theorem AbortsOnFirstError.after_ok {σ : Type} (c : Call)
    (log : List Event) (out : Run (σ × Option Error))
    (h : AbortsOnFirstError (⟨log, out⟩ : Traced Event (σ × Option Error))) :
    AbortsOnFirstError
      (⟨⟨c, .returned none⟩ :: log, out⟩ : Traced Event (σ × Option Error)) := by
  obtain ⟨hA, hB, hC⟩ := h
  refine ⟨fun ev hev e he => ?_, fun ev hev => ?_, fun st e hout => ?_⟩
  · rcases List.mem_cons.mp hev with h1 | h1
    · subst h1
      simp at he
    · exact hA ev h1 e he
  · rcases mem_dropLast_cons _ _ _ hev with h1 | h1
    · subst h1; rfl
    · exact hB ev h1
  · obtain ⟨ev, hev, he⟩ := hC st e hout
    exact ⟨ev, List.mem_cons_of_mem _ hev, he⟩

/-- The loop of `Array` aborts on the first error and returns it. -/
theorem Array.drainT_aborts {σ : Type}
    (decode : Bool → Nat → Option (List UInt8) → σ → Run (σ × Option Error)) :
    ∀ fuel i it st, AbortsOnFirstError (Array.drainT decode fuel i it st) := by
  apply Array.drainT_induct decode (fun _ _ _ _ t => AbortsOnFirstError t)
  · intro fuel i it st _
    exact AbortsOnFirstError.quiet_ok st
  · intro i it st _
    exact AbortsOnFirstError.quiet_stuck
  · intro fuel i it st p _ _
    exact AbortsOnFirstError.last_panic _ p
  · intro fuel i it st s e _ _ _
    exact AbortsOnFirstError.last_error _ e st
  · intro fuel i it st s p _ _ _ _
    exact AbortsOnFirstError.after_ok _ _ _ (AbortsOnFirstError.last_panic _ p)
  · intro fuel i it st s _ _ _ _
    exact AbortsOnFirstError.after_ok _ _ _ (AbortsOnFirstError.last_stuck _)
  · intro fuel i it st s r e _ _ _ _ _
    exact AbortsOnFirstError.after_ok _ _ _ (AbortsOnFirstError.last_error _ e r.1)
  · intro fuel i it st s r _ _ _ _ _ ih
    exact AbortsOnFirstError.after_ok _ _ _ (AbortsOnFirstError.after_ok _ _ _ ih)

/-! ## Termination of the loop -/

/-- The loop calls `NextElem` at most `⌈len(it)/4⌉` times, and with that much
fuel it ends, provided the element callback ends. -/
theorem Array.drainT_bound {σ : Type}
    (decode : Bool → Nat → Option (List UInt8) → σ → Run (σ × Option Error)) :
    ∀ fuel i it st,
      (nextElemPositions (Array.drainT decode fuel i it st).log).length ≤
          (it.length + 3) / 4 ∧
        ((∀ b k src s, decode b k src s ≠ .outOfFuel) → (it.length + 3) / 4 ≤ fuel →
          (Array.drainT decode fuel i it st).out ≠ .outOfFuel) := by
  apply Array.drainT_induct decode
    (fun fuel _ it _ t =>
      (nextElemPositions t.log).length ≤ (it.length + 3) / 4 ∧
        ((∀ b k src s, decode b k src s ≠ .outOfFuel) → (it.length + 3) / 4 ≤ fuel →
          t.out ≠ .outOfFuel))
  · intro fuel i it st _
    simp [nextElemPositions]
  · intro i it st h
    refine ⟨by simp [nextElemPositions], fun _ hf => ?_⟩
    omega
  · intro fuel i it st p h _
    refine ⟨?_, fun _ _ => by simp⟩
    simp only [nextElemPositions, List.filterMap_cons, List.filterMap_nil, List.length_singleton]
    omega
  · intro fuel i it st s e h _ _
    refine ⟨?_, fun _ _ => by simp⟩
    simp only [nextElemPositions, List.filterMap_cons, List.filterMap_nil, List.length_singleton]
    omega
  · intro fuel i it st s p h _ _ _
    refine ⟨?_, fun _ _ => by simp⟩
    simp only [nextElemPositions, List.filterMap_cons, List.filterMap_nil, List.length_singleton]
    omega
  · intro fuel i it st s h _ _ hd
    refine ⟨?_, fun hdec _ => absurd hd (hdec _ _ _ _)⟩
    simp only [nextElemPositions, List.filterMap_cons, List.filterMap_nil, List.length_singleton]
    omega
  · intro fuel i it st s r e h _ _ _ _
    refine ⟨?_, fun _ _ => by simp⟩
    simp only [nextElemPositions, List.filterMap_cons, List.filterMap_nil, List.length_singleton]
    omega
  · intro fuel i it st s r h hN hs _ _ ih
    have hsh := NextElem_shortens it s hN hs
    obtain ⟨h1, h2⟩ := ih
    refine ⟨?_, fun hdec hf => h2 hdec (by omega)⟩
    have e1 : ∀ l : List Event, nextElemPositions
        (⟨.nextElem i, .returned none⟩ :: ⟨.decode s.isNull i s.elemBytes, .returned none⟩ :: l)
        = i :: nextElemPositions l := fun l => by simp [nextElemPositions]
    simp only [e1, List.length_cons]
    omega

/-! ## The whole decoder -/

theorem NewArrayIterator_ne_outOfFuel (src : List UInt8) : NewArrayIterator src ≠ .outOfFuel := by
  by_cases h12 : src.length < 12
  · unfold NewArrayIterator
    rw [if_pos h12]
    exact fun h => Run.noConfusion h
  · obtain ⟨D, hD, _⟩ := readUint32_of_length src 0 (by omega)
    obtain ⟨c, hc, _⟩ := readUint32_of_length src 4 (by omega)
    obtain ⟨oid, hoid, _⟩ := readUint32_of_length src 8 (by omega)
    by_cases h2 : src.length < 12 + D * 8
    · simp [NewArrayIterator, h12, hD, hc, hoid, Run.bind, h2]
    · by_cases hpos : 1 ≤ D
      · obtain ⟨d0, rest, _, hr⟩ := NewArrayIterator_of_header src D oid hD hoid hpos (by omega)
        rw [hr]
        exact fun h => Run.noConfusion h
      · have hD0 : D = 0 := by omega
        subst hD0
        rw [readUint32_zero] at hD
        rw [NewArrayIterator_zero_dims src (by omega) hD]
        exact fun h => Run.noConfusion h

/-- Case analysis of an observed run of the decoder `Array(alloc, decode)`. -/
theorem ArrayT_induct {σ : Type}
    (alloc : Bool → Int → List ArrayDimension → Nat → σ → Run (σ × Option Error))
    (decode : Bool → Nat → Option (List UInt8) → σ → Run (σ × Option Error))
    (P : σ → Option (List UInt8) → Traced Event (σ × Option Error) → Prop)
    (nilSrc : ∀ st, P st none
      ⟨[⟨.alloc true 0 [] 0, endedBy Prod.snd (alloc true 0 [] 0 st)⟩], alloc true 0 [] 0 st⟩)
    (headerPanic : ∀ st bytes p, NewArrayIterator bytes = .panic p →
      P st (some bytes) ⟨[⟨.newIterator, .aborted⟩], .panic p⟩)
    (headerErr : ∀ st bytes h e, NewArrayIterator bytes = .ret h → h.err = some e →
      P st (some bytes) ⟨[⟨.newIterator, .returned (some e)⟩], .ret (st, some e)⟩)
    (allocPanic : ∀ st bytes h p, NewArrayIterator bytes = .ret h → h.err = none →
      alloc false h.elementCount h.dims h.oid st = .panic p →
      P st (some bytes)
        ⟨[⟨.newIterator, .returned none⟩,
            ⟨.alloc false h.elementCount h.dims h.oid, .aborted⟩], .panic p⟩)
    (allocStuck : ∀ st bytes h, NewArrayIterator bytes = .ret h → h.err = none →
      alloc false h.elementCount h.dims h.oid st = .outOfFuel →
      P st (some bytes)
        ⟨[⟨.newIterator, .returned none⟩,
            ⟨.alloc false h.elementCount h.dims h.oid, .aborted⟩], .outOfFuel⟩)
    (allocErr : ∀ st bytes h r e, NewArrayIterator bytes = .ret h → h.err = none →
      alloc false h.elementCount h.dims h.oid st = .ret r → r.2 = some e →
      P st (some bytes)
        ⟨[⟨.newIterator, .returned none⟩,
            ⟨.alloc false h.elementCount h.dims h.oid, .returned (some e)⟩],
          .ret (r.1, some e)⟩)
    (loop : ∀ st bytes h r, NewArrayIterator bytes = .ret h → h.err = none →
      alloc false h.elementCount h.dims h.oid st = .ret r → r.2 = none →
      P st (some bytes)
        ⟨⟨.newIterator, .returned none⟩ ::
            ⟨.alloc false h.elementCount h.dims h.oid, .returned none⟩ ::
            (Array.drainT decode h.it.length 0 h.it r.1).log,
          (Array.drainT decode h.it.length 0 h.it r.1).out⟩) :
    ∀ st src, P st src (ArrayT alloc decode st src) := by
  intro st src
  cases src with
  | none => exact nilSrc st
  | some bytes =>
    show P st (some bytes) ((Traced.emit ⟨.newIterator,
      endedBy ArrayStart.err (NewArrayIterator bytes)⟩ (NewArrayIterator bytes)).bind _)
    cases hN : NewArrayIterator bytes with
    | outOfFuel => exact absurd hN (NewArrayIterator_ne_outOfFuel bytes)
    | panic p =>
      simp only [Traced.bind, Traced.emit, endedBy]
      exact headerPanic st bytes p hN
    | ret h =>
      cases hs : h.err with
      | some e =>
        simp only [Traced.bind, Traced.emit, endedBy, hs, Traced.quiet, List.append_nil]
        exact headerErr st bytes h e hN hs
      | none =>
        cases hd : alloc false h.elementCount h.dims h.oid st with
        | outOfFuel =>
          simp only [Traced.bind, Traced.emit, endedBy, hs, hd, List.singleton_append]
          exact allocStuck st bytes h hN hs hd
        | panic p =>
          simp only [Traced.bind, Traced.emit, endedBy, hs, hd, List.singleton_append]
          exact allocPanic st bytes h p hN hs hd
        | ret r =>
          cases hr : r.2 with
          | some e =>
            simp only [Traced.bind, Traced.emit, endedBy, hs, hd, hr, Traced.quiet,
              List.singleton_append, List.append_nil]
            exact allocErr st bytes h r e hN hs hd hr
          | none =>
            simp only [Traced.bind, Traced.emit, endedBy, hs, hd, hr, List.singleton_append]
            exact loop st bytes h r hN hs hd hr

/-- Erasing the observations of `ArrayT` gives `Array`. -/
theorem ArrayT_out {σ : Type}
    (alloc : Bool → Int → List ArrayDimension → Nat → σ → Run (σ × Option Error))
    (decode : Bool → Nat → Option (List UInt8) → σ → Run (σ × Option Error)) :
    ∀ st src, (ArrayT alloc decode st src).out = Array alloc decode st src := by
  apply ArrayT_induct alloc decode (fun st src t => t.out = Array alloc decode st src)
  · intro st; rfl
  · intro st bytes p hN
    simp only [Array, hN]; rfl
  · intro st bytes h e hN hs
    simp only [Array, hN, Run.bind_ret, hs]
  · intro st bytes h p hN hs hd
    simp only [Array, hN, Run.bind_ret, hs, hd]; rfl
  · intro st bytes h hN hs hd
    simp only [Array, hN, Run.bind_ret, hs, hd]; rfl
  · intro st bytes h r e hN hs hd hr
    simp only [Array, hN, Run.bind_ret, hs, hd, hr]
  · intro st bytes h r hN hs hd hr
    simp only [Array, hN, Run.bind_ret, hs, hd, hr]
    exact Array.drainT_out decode _ _ _ _

/-- The decoder `Array(alloc, decode)` aborts on the first error and returns
it. -/
theorem ArrayT_aborts {σ : Type}
    (alloc : Bool → Int → List ArrayDimension → Nat → σ → Run (σ × Option Error))
    (decode : Bool → Nat → Option (List UInt8) → σ → Run (σ × Option Error)) :
    ∀ st src, AbortsOnFirstError (ArrayT alloc decode st src) := by
  apply ArrayT_induct alloc decode (fun _ _ t => AbortsOnFirstError t)
  · intro st
    cases hd : alloc true 0 [] 0 st with
    | outOfFuel => exact AbortsOnFirstError.last_stuck _
    | panic p => exact AbortsOnFirstError.last_panic _ p
    | ret r =>
      cases hr : r.2 with
      | some e =>
        have hre : r = (r.1, some e) := by rw [← hr]
        simp only [endedBy, hr]
        rw [hre]
        exact AbortsOnFirstError.last_error _ e r.1
      | none =>
        have hre : r = (r.1, none) := by rw [← hr]
        simp only [endedBy, hr]
        rw [hre]
        exact AbortsOnFirstError.after_ok _ _ _ (AbortsOnFirstError.quiet_ok r.1)
  · intro st bytes p _
    exact AbortsOnFirstError.last_panic _ p
  · intro st bytes h e _ _
    exact AbortsOnFirstError.last_error _ e st
  · intro st bytes h p _ _ _
    exact AbortsOnFirstError.after_ok _ _ _ (AbortsOnFirstError.last_panic _ p)
  · intro st bytes h _ _ _
    exact AbortsOnFirstError.after_ok _ _ _ (AbortsOnFirstError.last_stuck _)
  · intro st bytes h r e _ _ _ _
    exact AbortsOnFirstError.after_ok _ _ _ (AbortsOnFirstError.last_error _ e r.1)
  · intro st bytes h r _ _ _ _
    exact AbortsOnFirstError.after_ok _ _ _
      (AbortsOnFirstError.after_ok _ _ _ (Array.drainT_aborts decode _ _ _ _))

/-- Positions of the calls in a run of the decoder: `NextElem` and the element
callback are called at the indices 0, 1, 2, ... in order, and equally often
when the decoder returns nil. -/
theorem ArrayT_positions {σ : Type}
    (alloc : Bool → Int → List ArrayDimension → Nat → σ → Run (σ × Option Error))
    (decode : Bool → Nat → Option (List UInt8) → σ → Run (σ × Option Error)) :
    ∀ st src,
      nextElemPositions (ArrayT alloc decode st src).log =
          List.range (nextElemPositions (ArrayT alloc decode st src).log).length ∧
        decodePositions (ArrayT alloc decode st src).log =
          List.range (decodePositions (ArrayT alloc decode st src).log).length ∧
        (∀ st1, (ArrayT alloc decode st src).out = .ret (st1, none) →
          (nextElemPositions (ArrayT alloc decode st src).log).length =
            (decodePositions (ArrayT alloc decode st src).log).length) := by
  apply ArrayT_induct alloc decode
    (fun _ _ t =>
      nextElemPositions t.log = List.range (nextElemPositions t.log).length ∧
        decodePositions t.log = List.range (decodePositions t.log).length ∧
        (∀ st1, t.out = .ret (st1, none) →
          (nextElemPositions t.log).length = (decodePositions t.log).length))
  · intro st
    simp [nextElemPositions, decodePositions]
  · intro st bytes p _
    simp [nextElemPositions, decodePositions]
  · intro st bytes h e _ _
    simp [nextElemPositions, decodePositions]
  · intro st bytes h p _ _ _
    simp [nextElemPositions, decodePositions]
  · intro st bytes h _ _ _
    simp [nextElemPositions, decodePositions]
  · intro st bytes h r e _ _ _ _
    simp [nextElemPositions, decodePositions]
  · intro st bytes h r _ _ _ _
    obtain ⟨h1, h2, _, h4⟩ := Array.drainT_positions decode h.it.length 0 h.it r.1
    have e1 : ∀ l : List Event, nextElemPositions
        (⟨.newIterator, .returned none⟩ ::
          ⟨.alloc false h.elementCount h.dims h.oid, .returned none⟩ :: l)
        = nextElemPositions l := fun l => by simp [nextElemPositions]
    have e2 : ∀ l : List Event, decodePositions
        (⟨.newIterator, .returned none⟩ ::
          ⟨.alloc false h.elementCount h.dims h.oid, .returned none⟩ :: l)
        = decodePositions l := fun l => by simp [decodePositions]
    simp only [e1, e2, List.range_eq_range']
    exact ⟨h1, h2, h4⟩

/-- The element callback runs at most `len(it)/4` times in a run of the
loop: once per successful `NextElem` call. -/
theorem Array.drainT_decode_bound {σ : Type}
    (decode : Bool → Nat → Option (List UInt8) → σ → Run (σ × Option Error)) :
    ∀ fuel i it st,
      (decodePositions (Array.drainT decode fuel i it st).log).length ≤ it.length / 4 := by
  apply Array.drainT_induct decode
    (fun _ _ it _ t => (decodePositions t.log).length ≤ it.length / 4)
  · intro fuel i it st _
    simp [decodePositions]
  · intro i it st _
    simp [decodePositions]
  · intro fuel i it st p _ _
    simp [decodePositions]
  · intro fuel i it st s e _ _ _
    simp [decodePositions]
  · intro fuel i it st s p _ hN hs _
    have hsh := NextElem_shortens it s hN hs
    simp only [decodePositions, List.filterMap_cons, List.filterMap_nil, List.length_singleton]
    omega
  · intro fuel i it st s _ hN hs _
    have hsh := NextElem_shortens it s hN hs
    simp only [decodePositions, List.filterMap_cons, List.filterMap_nil, List.length_singleton]
    omega
  · intro fuel i it st s r e _ hN hs _ _
    have hsh := NextElem_shortens it s hN hs
    simp only [decodePositions, List.filterMap_cons, List.filterMap_nil, List.length_singleton]
    omega
  · intro fuel i it st s r _ hN hs _ _ ih
    have hsh := NextElem_shortens it s hN hs
    have e2 : ∀ l : List Event, decodePositions
        (⟨.nextElem i, .returned none⟩ :: ⟨.decode s.isNull i s.elemBytes, .returned none⟩ :: l)
        = i :: decodePositions l := fun l => by simp [decodePositions]
    simp only [e2, List.length_cons]
    omega

theorem MyCompositeRawArray.decode_ne_outOfFuel (b : Bool) (k : Nat)
    (src : Option (List UInt8)) (dst : List MyCompositeRaw) :
    MyCompositeRawArray.decode b k src dst ≠ .outOfFuel := by
  unfold MyCompositeRawArray.decode
  split
  · exact fun h => Run.noConfusion h
  · split
    · exact fun h => Run.noConfusion h
    · exact fun h => Run.noConfusion h

/-! ## Iterator bytes that hold frames -/

theorem Uint32_putUint32 (n : Nat) (rest : List UInt8) :
    Uint32 (putUint32 n ++ rest) = .ret (n % 4294967296) := by
  have hb : ∀ k : Nat, (UInt8.ofNat k).toNat = k % 256 := fun _ => rfl
  simp only [putUint32, List.cons_append, List.nil_append, Uint32, hb]
  congr 1
  omega

/-- The call `NextElem` on a frame followed by further bytes yields the
payload of the frame and leaves the further bytes. -/
theorem NextElem_elemFrame (payload rest : List UInt8) (hp : payload.length < 2147483648) :
    NextElem (elemFrame payload ++ rest) = .ret ⟨false, some payload, none, rest⟩ := by
  have hbuf : elemFrame payload ++ rest = putUint32 payload.length ++ (payload ++ rest) := by
    simp [elemFrame, List.append_assoc]
  have hL : int32 ((payload.length % 4294967296 : Nat) : Int) = (payload.length : Int) := by
    unfold int32; omega
  have hlen : 4 + payload.length ≤ (putUint32 payload.length ++ (payload ++ rest)).length := by
    simp [putUint32]; omega
  rw [hbuf, NextElem_of_fit _ _ payload.length (Uint32_putUint32 _ _) hL hlen]
  have h1 : ((putUint32 payload.length ++ (payload ++ rest)).drop 4).take payload.length
      = payload := by simp [putUint32]
  have h2 : (putUint32 payload.length ++ (payload ++ rest)).drop (4 + payload.length)
      = rest := by
    rw [← List.drop_drop]
    simp [putUint32]
  rw [h1, h2]

theorem length_elemFrames (payloads : List (List UInt8)) :
    payloads.length ≤ (elemFrames payloads).length := by
  induction payloads with
  | nil => simp [elemFrames]
  | cons p ps ih =>
    have h : elemFrames (p :: ps) = putUint32 p.length ++ (p ++ elemFrames ps) := by
      simp [elemFrames, elemFrame, List.append_assoc]
    rw [h]
    simp only [List.length_append, List.length_cons]
    have h4 : (putUint32 p.length).length = 4 := rfl
    omega

theorem Array.drainT_succ {σ : Type}
    (decode : Bool → Nat → Option (List UInt8) → σ → Run (σ × Option Error))
    (fuel i : Nat) (it : ArrayIterator) (st : σ) (h : 0 < it.length) :
    Array.drainT decode (fuel + 1) i it st =
      (Traced.emit ⟨.nextElem i, endedBy ElemStep.err (NextElem it)⟩ (NextElem it)).bind fun s =>
        match s.err with
        | some e => Traced.quiet (.ret (st, some e))
        | none =>
          (Traced.emit ⟨.decode s.isNull i s.elemBytes,
              endedBy Prod.snd (decode s.isNull i s.elemBytes st)⟩
            (decode s.isNull i s.elemBytes st)).bind fun r =>
          match r.2 with
          | some e => Traced.quiet (.ret (r.1, some e))
          | none => Array.drainT decode fuel (i + 1) s.it r.1 := by
  rw [Array.drainT]
  rw [if_pos h]

/-- On iterator bytes that hold the frames of `payloads`, a run of the loop
that returns nil has called the element callback once per frame. -/
theorem Array.drainT_frames {σ : Type}
    (decode : Bool → Nat → Option (List UInt8) → σ → Run (σ × Option Error))
    (payloads : List (List UInt8)) :
    ∀ fuel i st st1, payloads.length ≤ fuel →
      (∀ p ∈ payloads, p.length < 2147483648) →
      (Array.drainT decode fuel i (elemFrames payloads) st).out = .ret (st1, none) →
      (decodePositions (Array.drainT decode fuel i (elemFrames payloads) st).log).length =
        payloads.length := by
  induction payloads with
  | nil =>
    intro fuel i st st1 _ _ _
    have h : Array.drainT decode fuel i (elemFrames []) st = ⟨[], .ret (st, none)⟩ := by
      cases fuel <;> rfl
    rw [h]
    rfl
  | cons p ps ih =>
    intro fuel i st st1 hfuel hsz hout
    have hp : p.length < 2147483648 := hsz p (List.mem_cons_self _ _)
    have hsz2 : ∀ q ∈ ps, q.length < 2147483648 := fun q hq => hsz q (List.mem_cons_of_mem _ hq)
    have hframes : elemFrames (p :: ps) = elemFrame p ++ elemFrames ps := by
      simp [elemFrames]
    have hpos : 0 < (elemFrames (p :: ps)).length :=
      Nat.lt_of_lt_of_le (by simp) (length_elemFrames (p :: ps))
    match fuel, hfuel with
    | fuel + 1, hfuel =>
      have hfuel2 : ps.length ≤ fuel := by simpa using hfuel
      have hN : NextElem (elemFrames (p :: ps)) =
          .ret ⟨false, some p, none, elemFrames ps⟩ := by
        rw [hframes]; exact NextElem_elemFrame p _ hp
      rw [Array.drainT_succ decode fuel i _ st hpos, hN] at hout ⊢
      cases hd : decode false i (some p) st with
      | outOfFuel =>
        simp only [Traced.bind, Traced.emit, hd] at hout
        cases hout
      | panic f =>
        simp only [Traced.bind, Traced.emit, hd] at hout
        cases hout
      | ret r =>
        cases hr : r.2 with
        | some e =>
          simp only [Traced.bind, Traced.emit, hd, hr, Traced.quiet] at hout
          cases hout
        | none =>
          simp only [Traced.bind, Traced.emit, hd, hr] at hout ⊢
          have := ih fuel (i + 1) r.1 st1 hfuel2 hsz2 hout
          simp only [decodePositions, endedBy] at this ⊢
          simp [this]

/-- A run of the decoder on a non-nil buffer that returns nil went through the
header parse, the header callback and the loop. -/
theorem ArrayT_of_success {σ : Type}
    (alloc : Bool → Int → List ArrayDimension → Nat → σ → Run (σ × Option Error))
    (decode : Bool → Nat → Option (List UInt8) → σ → Run (σ × Option Error)) :
    ∀ st src, ∀ bytes st1, src = some bytes →
      (ArrayT alloc decode st src).out = .ret (st1, none) →
      ∃ h r, NewArrayIterator bytes = .ret h ∧ h.err = none ∧
        (ArrayT alloc decode st src).log =
          ⟨.newIterator, .returned none⟩ ::
            ⟨.alloc false h.elementCount h.dims h.oid, .returned none⟩ ::
            (Array.drainT decode h.it.length 0 h.it r).log ∧
        (Array.drainT decode h.it.length 0 h.it r).out = .ret (st1, none) := by
  apply ArrayT_induct alloc decode
    (fun _ src t => ∀ bytes st1, src = some bytes → t.out = .ret (st1, none) →
      ∃ h r, NewArrayIterator bytes = .ret h ∧ h.err = none ∧
        t.log = ⟨.newIterator, .returned none⟩ ::
            ⟨.alloc false h.elementCount h.dims h.oid, .returned none⟩ ::
            (Array.drainT decode h.it.length 0 h.it r).log ∧
        (Array.drainT decode h.it.length 0 h.it r).out = .ret (st1, none))
  · intro st bytes st1 hsrc _
    cases hsrc
  · intro st bytes p _ b st1 _ hout
    cases hout
  · intro st bytes h e _ _ b st1 _ hout
    cases hout
  · intro st bytes h p _ _ _ b st1 _ hout
    cases hout
  · intro st bytes h _ _ _ b st1 _ hout
    cases hout
  · intro st bytes h r e _ _ _ _ b st1 _ hout
    cases hout
  · intro st bytes h r hN hs _ _ b st1 hsrc hout
    cases hsrc
    exact ⟨h, r.1, hN, hs, rfl, hout⟩

/-! ## Claims on the array decoders -/

/-- Counterexample to claim C11 as stated: `oneFrameBuf` declares
elementCount 2 and holds one frame. Both decoders complete without error
after one `NextElem` call and one element callback, at position 0. -/
theorem C11_call_count_counterexample :
    NewArrayIterator oneFrameBuf = .ret ⟨[0,0,0,0], 2, [⟨2, 1⟩], 23, none⟩ ∧
      Array idleAlloc idleDecode () (some oneFrameBuf) = .ret ((), none) ∧
      nextElemPositions (ArrayT idleAlloc idleDecode () (some oneFrameBuf)).log = [0] ∧
      decodePositions (ArrayT idleAlloc idleDecode () (some oneFrameBuf)).log = [0] ∧
      MyCompositeRawArray.DecodeBinary [] (some oneFrameBuf) =
        .ret ([⟨0, none⟩, ⟨0, none⟩], none) ∧
      decodePositions (ArrayT MyCompositeRawArray.alloc MyCompositeRawArray.decode []
        (some oneFrameBuf)).log = [0] := by
  decide

/-- Claim C11, amended. For every non-nil buffer on which the decoder
returned by `Array` completes without error, `NextElem` and the element
callback were each invoked the same number `n` of times, at the positions
0, 1, ..., n-1 in that order: once per loop iteration until the iterator is
empty, with no reference to elementCount. When the iterator bytes hold the
frames of a list of payloads, `n` is the number of these frames. The decoder
`MyCompositeRawArray.DecodeBinary` is `Array` with its own two callbacks, so
the same holds of it. -/
theorem C11_calls_until_iterator_empty {σ : Type}
    (alloc : Bool → Int → List ArrayDimension → Nat → σ → Run (σ × Option Error))
    (decode : Bool → Nat → Option (List UInt8) → σ → Run (σ × Option Error))
    (st st1 : σ) (bytes : List UInt8)
    (h : Array alloc decode st (some bytes) = .ret (st1, none)) :
    (ArrayT alloc decode st (some bytes)).out = Array alloc decode st (some bytes) ∧
      (∃ n, nextElemPositions (ArrayT alloc decode st (some bytes)).log = List.range n ∧
        decodePositions (ArrayT alloc decode st (some bytes)).log = List.range n ∧
        ∀ hdr payloads, NewArrayIterator bytes = .ret hdr → hdr.it = elemFrames payloads →
          (∀ p ∈ payloads, p.length < 2147483648) → n = payloads.length) ∧
      (∀ dst src, MyCompositeRawArray.DecodeBinary dst src =
        Array MyCompositeRawArray.alloc MyCompositeRawArray.decode dst src) := by
  refine ⟨ArrayT_out alloc decode st (some bytes), ?_,
    MyCompositeRawArray.DecodeBinary_eq_Array⟩
  obtain ⟨h1, h2, h3⟩ := ArrayT_positions alloc decode st (some bytes)
  have hout : (ArrayT alloc decode st (some bytes)).out = .ret (st1, none) := by
    rw [ArrayT_out]; exact h
  refine ⟨_, h1, ?_, ?_⟩
  · rw [h3 st1 hout]
    exact h2
  · intro hdr payloads hhdr hit hsz
    obtain ⟨h0, r, hN, _, hlog, hdrain⟩ :=
      ArrayT_of_success alloc decode st (some bytes) bytes st1 rfl hout
    rw [hhdr] at hN
    have hh := Run.ret.inj hN
    subst hh
    rw [h3 st1 hout, hlog]
    have e2 : ∀ l : List Event, decodePositions
        (⟨.newIterator, .returned none⟩ ::
          ⟨.alloc false hdr.elementCount hdr.dims hdr.oid, .returned none⟩ :: l)
        = decodePositions l := fun l => by simp [decodePositions]
    rw [e2]
    rw [hit] at hdrain ⊢
    exact Array.drainT_frames decode payloads _ 0 r st1 (length_elemFrames payloads) hsz hdrain

/-- Witness for C11 (amended) on `oneFrameBuf`. -/
theorem C11_calls_until_iterator_empty_witness :
    (ArrayT idleAlloc idleDecode () (some oneFrameBuf)).out =
        Array idleAlloc idleDecode () (some oneFrameBuf) ∧
      (∃ n, nextElemPositions (ArrayT idleAlloc idleDecode () (some oneFrameBuf)).log =
          List.range n ∧
        decodePositions (ArrayT idleAlloc idleDecode () (some oneFrameBuf)).log =
          List.range n ∧
        ∀ hdr payloads, NewArrayIterator oneFrameBuf = .ret hdr →
          hdr.it = elemFrames payloads →
          (∀ p ∈ payloads, p.length < 2147483648) → n = payloads.length) ∧
      (∀ dst src, MyCompositeRawArray.DecodeBinary dst src =
        Array MyCompositeRawArray.alloc MyCompositeRawArray.decode dst src) :=
  C11_calls_until_iterator_empty idleAlloc idleDecode () () oneFrameBuf (by decide)

/-- Claim C14. For every buffer and every pair of callbacks, in the run of the
decoder returned by `Array`: an error returned by any call (NewArrayIterator,
the header callback, NextElem, the element callback) is the error the decoder
returns, unchanged; every call but the last one returned a nil error, so no
call follows an error; an error the decoder returns is one a call returned; a
header error leaves the header parse as the only call; a header-callback
error leaves the header parse and the header callback as the only calls; and
the element callback runs at the positions 0, 1, 2, ... in order. -/
theorem C14_abort_on_first_error {σ : Type}
    (alloc : Bool → Int → List ArrayDimension → Nat → σ → Run (σ × Option Error))
    (decode : Bool → Nat → Option (List UInt8) → σ → Run (σ × Option Error))
    (st : σ) (src : Option (List UInt8)) :
    (ArrayT alloc decode st src).out = Array alloc decode st src ∧
      (∀ ev ∈ (ArrayT alloc decode st src).log, ∀ e, ev.ended = .returned (some e) →
        ∃ st1, Array alloc decode st src = .ret (st1, some e)) ∧
      (∀ ev ∈ (ArrayT alloc decode st src).log.dropLast, ev.ended = .returned none) ∧
      (∀ st1 e, Array alloc decode st src = .ret (st1, some e) →
        ∃ ev ∈ (ArrayT alloc decode st src).log, ev.ended = .returned (some e)) ∧
      (∀ bytes h e, src = some bytes → NewArrayIterator bytes = .ret h → h.err = some e →
        (ArrayT alloc decode st src).log = [⟨.newIterator, .returned (some e)⟩] ∧
        Array alloc decode st src = .ret (st, some e)) ∧
      (∀ bytes h r e, src = some bytes → NewArrayIterator bytes = .ret h → h.err = none →
        alloc false h.elementCount h.dims h.oid st = .ret r → r.2 = some e →
        (ArrayT alloc decode st src).log =
          [⟨.newIterator, .returned none⟩,
            ⟨.alloc false h.elementCount h.dims h.oid, .returned (some e)⟩] ∧
        Array alloc decode st src = .ret (r.1, some e)) ∧
      decodePositions (ArrayT alloc decode st src).log =
        List.range (decodePositions (ArrayT alloc decode st src).log).length := by
  obtain ⟨hA, hB, hC⟩ := ArrayT_aborts alloc decode st src
  have hout := ArrayT_out alloc decode st src
  refine ⟨hout, ?_, hB, ?_, ?_, ?_, (ArrayT_positions alloc decode st src).2.1⟩
  · intro ev hev e he
    rw [← hout]
    exact hA ev hev e he
  · intro st1 e h
    rw [← hout] at h
    exact hC st1 e h
  · intro bytes h e hsrc hN hs
    subst hsrc
    refine ⟨?_, ?_⟩
    · simp only [ArrayT, Traced.bind, Traced.emit, endedBy, hN, hs, Traced.quiet,
        List.append_nil]
    · simp only [Array, hN, Run.bind_ret, hs]
  · intro bytes h r e hsrc hN hs hd hr
    subst hsrc
    refine ⟨?_, ?_⟩
    · simp only [ArrayT, Traced.bind, Traced.emit, endedBy, hN, hs, hd, hr, Traced.quiet,
        List.append_nil, List.singleton_append]
    · simp only [Array, hN, Run.bind_ret, hs, hd, hr]

/-- Runs of the decoder that stop at an error of `NextElem` in the second
iteration and at a header error. -/
theorem ArrayT_examples :
    (ArrayT idleAlloc idleDecode ()
        (some [0,0,0,1, 0,0,0,0, 0,0,0,23, 0,0,0,2, 0,0,0,1, 0,0,0,0, 0,0,0])).log =
      [⟨.newIterator, .returned none⟩, ⟨.alloc false 2 [⟨2, 1⟩] 23, .returned none⟩,
        ⟨.nextElem 0, .returned none⟩, ⟨.decode false 0 (some []), .returned none⟩,
        ⟨.nextElem 1, .returned (some .elementTooShort)⟩] ∧
    (ArrayT idleAlloc idleDecode () (some [0,0,0,1])).log =
      [⟨.newIterator, .returned (some (.headerTooShort 4))⟩] := by
  decide

/-- Counterexample to claim C17 as stated: on an iterator of 3 bytes the loop
runs one iteration (one `NextElem` call, which returns the error), while
`len(it)/4` is 0. -/
theorem C17_iteration_bound_counterexample :
    Array.drain idleDecode 3 0 [0,0,0] () = .ret ((), some .elementTooShort) ∧
      (Array.drainT idleDecode 3 0 [0,0,0] ()).log =
        [⟨.nextElem 0, .returned (some .elementTooShort)⟩] ∧
      (nextElemPositions (Array.drainT idleDecode 3 0 [0,0,0] ()).log).length = 1 ∧
      ¬ ((nextElemPositions (Array.drainT idleDecode 3 0 [0,0,0] ()).log).length ≤
        ([0,0,0] : ArrayIterator).length / 4) := by
  decide

/-- Claim C17, amended. Every successful `NextElem` call shortens the
iterator by at least 4 bytes, so the drain loop of the array decoders, run
with an element callback that ends, terminates (fuel `⌈len(it)/4⌉` is enough,
and so is fuel `len(it)`) after at most `⌈len(it)/4⌉` iterations, of which at
most `len(it)/4` get past `NextElem`. -/
theorem C17_drain_terminates {σ : Type}
    (decode : Bool → Nat → Option (List UInt8) → σ → Run (σ × Option Error))
    (hdec : ∀ b k src s, decode b k src s ≠ .outOfFuel)
    (fuel i : Nat) (it : ArrayIterator) (st : σ) (hf : (it.length + 3) / 4 ≤ fuel) :
    (∀ s, NextElem it = .ret s → s.err = none → s.it.length + 4 ≤ it.length) ∧
      Array.drain decode fuel i it st ≠ .outOfFuel ∧
      Array.drain decode it.length i it st ≠ .outOfFuel ∧
      (∀ dst, MyCompositeRawArray.drain fuel i it dst ≠ .outOfFuel) ∧
      (Array.drainT decode fuel i it st).out = Array.drain decode fuel i it st ∧
      (nextElemPositions (Array.drainT decode fuel i it st).log).length ≤
        (it.length + 3) / 4 ∧
      (decodePositions (Array.drainT decode fuel i it st).log).length ≤ it.length / 4 := by
  refine ⟨fun s hN hs => NextElem_shortens it s hN hs, ?_, ?_, ?_,
    Array.drainT_out decode fuel i it st, (Array.drainT_bound decode fuel i it st).1,
    Array.drainT_decode_bound decode fuel i it st⟩
  · rw [← Array.drainT_out]
    exact (Array.drainT_bound decode fuel i it st).2 hdec hf
  · rw [← Array.drainT_out]
    exact (Array.drainT_bound decode it.length i it st).2 hdec (by omega)
  · intro dst
    rw [MyCompositeRawArray.drain_eq_Array, ← Array.drainT_out]
    exact (Array.drainT_bound MyCompositeRawArray.decode fuel i it dst).2
      MyCompositeRawArray.decode_ne_outOfFuel hf

/-- Witness for C17 (amended): two frames of length 0 and fuel 2. -/
theorem C17_drain_terminates_witness :
    (∀ s, NextElem [0,0,0,0, 0,0,0,0] = .ret s → s.err = none →
        s.it.length + 4 ≤ ([0,0,0,0, 0,0,0,0] : ArrayIterator).length) ∧
      Array.drain idleDecode 2 0 [0,0,0,0, 0,0,0,0] () ≠ .outOfFuel ∧
      Array.drain idleDecode ([0,0,0,0, 0,0,0,0] : ArrayIterator).length 0
        [0,0,0,0, 0,0,0,0] () ≠ .outOfFuel ∧
      (∀ dst, MyCompositeRawArray.drain 2 0 [0,0,0,0, 0,0,0,0] dst ≠ .outOfFuel) ∧
      (Array.drainT idleDecode 2 0 [0,0,0,0, 0,0,0,0] ()).out =
        Array.drain idleDecode 2 0 [0,0,0,0, 0,0,0,0] () ∧
      (nextElemPositions (Array.drainT idleDecode 2 0 [0,0,0,0, 0,0,0,0] ()).log).length ≤
        (([0,0,0,0, 0,0,0,0] : ArrayIterator).length + 3) / 4 ∧
      (decodePositions (Array.drainT idleDecode 2 0 [0,0,0,0, 0,0,0,0] ()).log).length ≤
        ([0,0,0,0, 0,0,0,0] : ArrayIterator).length / 4 :=
  C17_drain_terminates idleDecode (fun _ _ _ _ h => Run.noConfusion h) 2 0
    [0,0,0,0, 0,0,0,0] () (by decide)

/-- Claim C18 (code defect). The buffer `twoRowBuf` is accepted with
elementCount 1 and holds two frames, each with the row (a = 7, b = NULL).
With an empty destination both decoders grow the destination to one entry,
decode frame 0 into `(*dst)[0]` without error and then evaluate `(*dst)[1]`
with `len(*dst) = 1`: index out of range. -/
theorem C18_destination_index_out_of_range :
    twoRowBuf =
        [0,0,0,1, 0,0,0,0, 0,0,64,0, 0,0,0,1, 0,0,0,1] ++
          elemFrames [encodeRecord [] [(23, some [0,0,0,7]), (25, none)],
            encodeRecord [] [(23, some [0,0,0,7]), (25, none)]] ∧
      NewArrayIterator twoRowBuf =
        .ret ⟨elemFrames [rowBytes, rowBytes], 1, [⟨1, 1⟩], 16384, none⟩ ∧
      growTo (⟨0, none⟩ : MyCompositeRaw) [] 1 = [⟨0, none⟩] ∧
      growTo (⟨0, none⟩ : MyType) [] 1 = [⟨0, none⟩] ∧
      MyType.DecodeBinary ⟨0, none⟩ (some rowBytes) = .ret (⟨7, none⟩, none) ∧
      MyCompositeRawArray.DecodeBinary [] (some twoRowBuf) = .panic .indexOutOfRange ∧
      MyTypeArrayDecoder [] (some twoRowBuf) = .panic .indexOutOfRange ∧
      (ArrayT MyCompositeRawArray.alloc MyCompositeRawArray.decode [] (some twoRowBuf)).log =
        [⟨.newIterator, .returned none⟩, ⟨.alloc false 1 [⟨1, 1⟩] 16384, .returned none⟩,
          ⟨.nextElem 0, .returned none⟩, ⟨.decode false 0 (some rowBytes), .returned none⟩,
          ⟨.nextElem 1, .returned none⟩, ⟨.decode false 1 (some rowBytes), .aborted⟩] ∧
      (ArrayT MyTypeArrayDecoder.alloc MyTypeArrayDecoder.decode [] (some twoRowBuf)).log =
        [⟨.newIterator, .returned none⟩, ⟨.alloc false 1 [⟨1, 1⟩] 16384, .returned none⟩,
          ⟨.nextElem 0, .returned none⟩, ⟨.decode false 0 (some rowBytes), .returned none⟩,
          ⟨.nextElem 1, .returned none⟩, ⟨.decode false 1 (some rowBytes), .aborted⟩] := by
  decide

/-- The decoders on `twoFrameBuf`, whose two frames are empty and not rows:
`MyCompositeRawArray.DecodeBinary` indexes `(*dst)[1]` out of range, while the
decoder built by `MyTypeArrayDecoder` stops before, at the error of
`ScanRowValue` on frame 0. -/
theorem decoders_on_twoFrameBuf :
    MyCompositeRawArray.DecodeBinary [] (some twoFrameBuf) = .panic .indexOutOfRange ∧
      MyTypeArrayDecoder [] (some twoFrameBuf) =
        .ret ([⟨0, none⟩], some .malformedInput) := by
  decide

/-! ## Composite round trip -/

theorem length_putUint32 (n : Nat) : (putUint32 n).length = 4 := rfl

theorem readUint32_first (a : Nat) (rest : List UInt8) :
    readUint32 (putUint32 a ++ rest) 0 = .ret (a % 4294967296) := by
  rw [readUint32_zero, Uint32_putUint32]

theorem readUint32_second (a b : Nat) (rest : List UInt8) :
    readUint32 (putUint32 a ++ (putUint32 b ++ rest)) 4 = .ret (b % 4294967296) := by
  have hle : 4 ≤ (putUint32 a ++ (putUint32 b ++ rest)).length := by
    simp [length_putUint32]
  have hdrop : (putUint32 a ++ (putUint32 b ++ rest)).drop 4 = putUint32 b ++ rest := by
    rw [List.drop_append_of_le_length (by simp [length_putUint32])]
    simp [putUint32]
  unfold readUint32 sliceFrom
  rw [if_pos hle, Run.bind_ret, hdrop, Uint32_putUint32]

/-- One step of the scanner on a field written by `RecordAdd`. -/
theorem scanFields_RecordAdd {σ : Type} (d : FieldDecoder σ) (ds : List (FieldDecoder σ))
    (oid : Nat) (b tail : List UInt8) (st : σ) (hb : b.length < 2147483648) :
    scanFields (d :: ds) (RecordAdd [] oid b ++ tail) st =
      (d (some b) st).bind fun r =>
        match r.2 with
        | some e => .ret (r.1, some e)
        | none => scanFields ds tail r.1 := by
  have hbuf : RecordAdd [] oid b ++ tail =
      putUint32 oid ++ (putUint32 b.length ++ (b ++ tail)) := by
    simp [RecordAdd, List.append_assoc]
  have hlen : (putUint32 oid ++ (putUint32 b.length ++ (b ++ tail))).length =
      8 + b.length + tail.length := by
    simp [length_putUint32]; omega
  have hL : int32 ((b.length % 4294967296 : Nat) : Int) = (b.length : Int) := by
    unfold int32; omega
  have h8 : ¬ (putUint32 oid ++ (putUint32 b.length ++ (b ++ tail))).length < 8 := by
    rw [hlen]; omega
  have hne : ¬ ((b.length : Int) = -1) := by omega
  have hfit : ¬ ((b.length : Int) < 0 ∨
      ((putUint32 oid ++ (putUint32 b.length ++ (b ++ tail))).length : Int) <
        8 + (b.length : Int)) := by
    rw [hlen]; omega
  have hpay : ((putUint32 oid ++ (putUint32 b.length ++ (b ++ tail))).drop 8).take b.length
      = b := by
    simp [putUint32]
  have hrest : (putUint32 oid ++ (putUint32 b.length ++ (b ++ tail))).drop (8 + b.length)
      = tail := by
    rw [← List.drop_drop]
    simp [putUint32]
  rw [hbuf, scanFields, if_neg h8, readUint32_first, Run.bind_ret, readUint32_second,
    Run.bind_ret, hL, if_neg hne, if_neg hfit]
  simp only [Int.toNat_ofNat, hpay, hrest]

/-- One step of the scanner on a field written by `RecordAddNull`. -/
theorem scanFields_RecordAddNull {σ : Type} (d : FieldDecoder σ) (ds : List (FieldDecoder σ))
    (oid : Nat) (tail : List UInt8) (st : σ) :
    scanFields (d :: ds) (RecordAddNull [] oid ++ tail) st =
      (d none st).bind fun r =>
        match r.2 with
        | some e => .ret (r.1, some e)
        | none => scanFields ds tail r.1 := by
  have hbuf : RecordAddNull [] oid ++ tail =
      putUint32 oid ++ (putUint32 4294967295 ++ tail) := by
    simp [RecordAddNull, List.append_assoc]
  have h8 : ¬ (putUint32 oid ++ (putUint32 4294967295 ++ tail)).length < 8 := by
    simp [length_putUint32]; omega
  have hL : int32 ((4294967295 % 4294967296 : Nat) : Int) = -1 := by decide
  have hrest : (putUint32 oid ++ (putUint32 4294967295 ++ tail)).drop 8 = tail := by
    simp [putUint32]
  rw [hbuf, scanFields, if_neg h8, readUint32_first, Run.bind_ret, readUint32_second,
    Run.bind_ret, if_pos hL, hrest]

theorem addField_append (buf : List UInt8) (f : Field) :
    addField buf f = buf ++ addField [] f := by
  unfold addField
  cases f.2 with
  | none => simp [RecordAddNull, List.append_assoc]
  | some b => simp [RecordAdd, List.append_assoc]

theorem foldl_addField (fields : List Field) :
    ∀ acc, fields.foldl addField acc = acc ++ (fields.map (addField [])).flatten := by
  induction fields with
  | nil => intro acc; simp
  | cons f fs ih =>
    intro acc
    rw [List.foldl_cons, ih, addField_append acc f]
    simp [List.append_assoc]

/-- The buffer of a record: the caller's bytes, the field count, the frames
of the fields. -/
theorem encodeRecord_eq (buf : List UInt8) (fields : List Field) :
    encodeRecord buf fields =
      buf ++ (putUint32 fields.length ++ (fields.map (addField [])).flatten) := by
  unfold encodeRecord RecordStart
  rw [foldl_addField, List.append_assoc]

/-- Scanning the frames of a list of fields calls the decoders in order on
the bytes of the fields. -/
theorem scanFields_frames {σ : Type} (fields : List Field) :
    ∀ (ds : List (FieldDecoder σ)) (st : σ) (tail : List UInt8),
      ds.length = fields.length →
      (∀ f ∈ fields, ∀ b, f.2 = some b → b.length < 2147483648) →
      scanFields ds ((fields.map (addField [])).flatten ++ tail) st =
        applyDecoders ds (fields.map Prod.snd) st := by
  induction fields with
  | nil =>
    intro ds st tail hlen _
    have hds : ds = [] := List.length_eq_zero.mp hlen
    subst hds
    rfl
  | cons f fs ih =>
    intro ds st tail hlen hsz
    match ds, hlen with
    | d :: ds, hlen =>
      have hlen2 : ds.length = fs.length := by simpa using hlen
      have hsz2 : ∀ g ∈ fs, ∀ b, g.2 = some b → b.length < 2147483648 :=
        fun g hg => hsz g (List.mem_cons_of_mem _ hg)
      have hjoin : ((f :: fs).map (addField [])).flatten ++ tail =
          addField [] f ++ ((fs.map (addField [])).flatten ++ tail) := by
        simp [List.append_assoc]
      rw [hjoin]
      obtain ⟨oid, payload⟩ := f
      cases payload with
      | none =>
        show scanFields (d :: ds) (RecordAddNull [] oid ++ _) st = _
        rw [scanFields_RecordAddNull]
        show _ = (d none st).bind _
        congr 1
        funext r
        cases r.2 with
        | some e => rfl
        | none => exact ih ds r.1 tail hlen2 hsz2
      | some b =>
        have hb : b.length < 2147483648 := hsz (oid, some b) (List.mem_cons_self _ _) b rfl
        show scanFields (d :: ds) (RecordAdd [] oid b ++ _) st = _
        rw [scanFields_RecordAdd d ds oid b _ st hb]
        show _ = (d (some b) st).bind _
        congr 1
        funext r
        cases r.2 with
        | some e => rfl
        | none => exact ih ds r.1 tail hlen2 hsz2

/-- On the buffer of a record, `ScanRowValue` makes the calls of
`applyDecoders`: decoder `i` on the bytes of field `i`, in order. -/
theorem ScanRowValue_encodeRecord {σ : Type} (buf : List UInt8) (fields : List Field)
    (decoders : List (FieldDecoder σ)) (st : σ)
    (hN : fields.length < 4294967296) (hd : decoders.length = fields.length)
    (hsz : ∀ f ∈ fields, ∀ b, f.2 = some b → b.length < 2147483648) :
    ScanRowValue ((encodeRecord buf fields).drop buf.length) decoders st =
      (applyDecoders decoders (fields.map Prod.snd) st).bind fun r =>
        match r.2 with
        | some e => .ret (st, some e)
        | none => .ret (r.1, none) := by
  have hdrop : (encodeRecord buf fields).drop buf.length =
      putUint32 fields.length ++ (fields.map (addField [])).flatten := by
    rw [encodeRecord_eq, List.drop_left]
  have h4 : ¬ (putUint32 fields.length ++ (fields.map (addField [])).flatten).length < 4 := by
    simp [length_putUint32]
  have hmod : fields.length % 4294967296 = fields.length := Nat.mod_eq_of_lt hN
  have hF : ¬ (fields.length ≠ decoders.length) := by rw [hd]; exact fun h => h rfl
  have hrest : (putUint32 fields.length ++ (fields.map (addField [])).flatten).drop 4 =
      (fields.map (addField [])).flatten ++ [] := by
    simp [putUint32]
  rw [hdrop]
  unfold ScanRowValue
  rw [if_neg h4, readUint32_first, Run.bind_ret, hmod, if_neg hF, hrest,
    scanFields_frames fields decoders st [] hd hsz]

/-- The recording decoders, called in order, record the numbered fields. -/
theorem applyDecoders_recording (fields : List Field) :
    ∀ k log, applyDecoders (recordingDecoders k fields.length) (fields.map Prod.snd) log =
      .ret (log ++ numbered k fields, none) := by
  induction fields with
  | nil => intro k log; simp [recordingDecoders, applyDecoders, numbered]
  | cons f fs ih =>
    intro k log
    have hdec : recordingDecoders k (f :: fs).length =
        recordingDecoder k :: recordingDecoders (k + 1) fs.length := by
      simp [recordingDecoders, List.range'_succ]
    rw [hdec]
    show applyDecoders (recordingDecoders (k + 1) fs.length) (fs.map Prod.snd)
      (log ++ [(k, f.2)]) = _
    rw [ih]
    simp [numbered, List.append_assoc]

theorem length_recordingDecoders (k n : Nat) : (recordingDecoders k n).length = n := by
  simp [recordingDecoders]

/-- Claim C15. For every sequence of fields (fewer than `2^32` of them, each
NULL or a byte string shorter than `2^31` bytes, the sizes the uint32 count
and the int32 length can hold), the bytes appended to `buf` by
`RecordStart(buf, N)` and one `RecordAdd` / `RecordAddNull` per field, passed
to `ScanRowValue` with `N` decoders that record their calls, return no error
and leave the record of exactly one call per decoder, decoder `i` with the
bytes (or NULL) of field `i`, in the order `0..N-1`. In particular
`RecordStart(buf,2)`, `RecordAdd(oid 23, 00 00 00 07)`, `RecordAddNull(oid 25)`
gives decoder 0 called with `00 00 00 07` and decoder 1 called with NULL. -/
theorem C15_composite_round_trip (buf : List UInt8) (fields : List Field)
    (hN : fields.length < 4294967296)
    (hsz : ∀ f ∈ fields, ∀ b, f.2 = some b → b.length < 2147483648) :
    ScanRowValue ((encodeRecord buf fields).drop buf.length)
        (recordingDecoders 0 fields.length) [] = .ret (numbered 0 fields, none) ∧
      encodeRecord [] [(23, some [0,0,0,7]), (25, none)] =
        RecordAddNull (RecordAdd (RecordStart [] 2) 23 [0,0,0,7]) 25 ∧
      ScanRowValue (RecordAddNull (RecordAdd (RecordStart [] 2) 23 [0,0,0,7]) 25)
        [recordingDecoder 0, recordingDecoder 1] [] =
        .ret ([(0, some [0,0,0,7]), (1, none)], none) := by
  refine ⟨?_, by decide, by decide⟩
  rw [ScanRowValue_encodeRecord buf fields _ [] hN (length_recordingDecoders 0 _) hsz,
    applyDecoders_recording]
  rfl

/-- Witness for C15: three fields appended to a buffer that already holds two
bytes. -/
theorem C15_composite_round_trip_witness :
    ScanRowValue ((encodeRecord [9, 9] [(23, some [0,0,0,7]), (25, none), (17, some [])]).drop
          ([9, 9] : List UInt8).length)
        (recordingDecoders 0
          ([(23, some [0,0,0,7]), (25, none), (17, some [])] : List Field).length) [] =
        .ret (numbered 0 [(23, some [0,0,0,7]), (25, none), (17, some [])], none) ∧
      encodeRecord [] [(23, some [0,0,0,7]), (25, none)] =
        RecordAddNull (RecordAdd (RecordStart [] 2) 23 [0,0,0,7]) 25 ∧
      ScanRowValue (RecordAddNull (RecordAdd (RecordStart [] 2) 23 [0,0,0,7]) 25)
        [recordingDecoder 0, recordingDecoder 1] [] =
        .ret ([(0, some [0,0,0,7]), (1, none)], none) :=
  C15_composite_round_trip [9, 9] [(23, some [0,0,0,7]), (25, none), (17, some [])]
    (by decide) (by decide)

/-- The scanner on a declared field count that differs from the number of
decoders, and the record of the witness. -/
theorem ScanRowValue_examples :
    ScanRowValue (encodeRecord [] [(23, some [0,0,0,7]), (25, none)])
        [recordingDecoder 0] [] = .ret ([], some (.typeMismatch 1 2)) ∧
      numbered 0 [(23, some [0,0,0,7]), (25, none), (17, some [])] =
        [(0, some [0,0,0,7]), (1, none), (2, some [])] := by
  decide

end Pgtype
